import Mathlib

set_option maxHeartbeats 1000000

/-!
Verification development for the opening-hours evaluation engine
(`src/opening_hours.rs`, `src/utils/range.rs`, `src/context.rs`).

Shallow embedding conventions:
* Instants (`NaiveDateTime`) are seconds since the calendar origin, as `Nat`.
* Calendar dates (`NaiveDate`) are day indices, `date = instant / dayLen`.
* `ExtendedTime` values inside a day schedule are seconds within the day.
* The external day/time selector capabilities (crate `opening_hours_syntax`,
  files `date_filter.rs` / `time_filter.rs`, not part of this repository's
  core sources) are abstract function fields of `RuleSequence`.
* `Schedule` (file `schedule.rs`, absent from the sources) is modelled from
  the spec as a plain list of state-tagged sub-intervals.
-/

/-- State kind of a rule: Open, Closed or Unknown (`RuleKind`). -/
inductive RuleKind
  | Open
  | Closed
  | Unknown
  deriving DecidableEq

/-- Combination operator of a rule (`RuleOperator`): Normal, Additional or Fallback. -/
inductive RuleOperator
  | Normal
  | Additional
  | Fallback
  deriving DecidableEq

/-- Number of seconds in one day; time-of-day values live in `[0, dayLen]`. -/
def dayLen : Nat := 86400

/-- Day index of the date ceiling 10000-01-01 (`DATE_LIMIT.date()`), counted from the calendar origin. -/
def dateLimitDays : Nat := 3652059

/-- The date ceiling `DATE_LIMIT` as an instant: midnight of `dateLimitDays`. -/
def dateLimit : Nat := dateLimitDays * dayLen

/-- A half-open range `start..end` (`std::ops::Range<T>`). -/
structure Rg (α : Type) where
  start : α
  end_ : α
  deriving DecidableEq

/-- Errors surfaced by the query facade (`Error::DateLimitExceeded`, `Error::RegionNotFound`). -/
inductive Error
  | DateLimitExceeded (t : Nat)
  | RegionNotFound (region : String)
  deriving DecidableEq

/-- Sweep phase of `time_ranges_union`: `current` is the range being merged, the list
holds the remaining ranges in increasing order of `start`.  A range whose start is at
or before `current.end_` is merged into `current` (extending the end if larger),
otherwise `current` is emitted (`src/utils/range.rs::time_ranges_union`). -/
def unionSweep {α : Type} [LinearOrder α] : Rg α → List (Rg α) → List (Rg α)
  | current, [] => [current]
  | current, item :: rest =>
    if item.start ≤ current.end_ then
      unionSweep ⟨current.start, max current.end_ item.end_⟩ rest
    else
      current :: unionSweep item rest

/-- Union of a collection of half-open ranges: sort by `start`, then sweep and merge
overlapping or touching ranges (`src/utils/range.rs::time_ranges_union`).  The Rust
code uses an unstable sort; the model fixes a deterministic stable sort by `start`. -/
def rgLE {α : Type} [LinearOrder α] (r1 r2 : Rg α) : Prop := r1.start ≤ r2.start

instance rgLEDecidable {α : Type} [LinearOrder α] : DecidableRel (@rgLE α _) :=
  fun a b => decidable_of_iff (a.start ≤ b.start) Iff.rfl

instance rgLETotal {α : Type} [LinearOrder α] : IsTotal (Rg α) rgLE :=
  ⟨fun a b => le_total a.start b.start⟩

instance rgLETrans {α : Type} [LinearOrder α] : IsTrans (Rg α) rgLE :=
  ⟨fun _ _ _ h1 h2 => le_trans h1 h2⟩

def time_ranges_union {α : Type} [LinearOrder α] (ranges : List (Rg α)) : List (Rg α) :=
  match List.insertionSort rgLE ranges with
  | [] => []
  | c :: rest => unionSweep c rest

/-- Containment for a possibly wrapping inclusive range `start..=end_`
(`src/utils/range.rs::WrappingRange::wrapping_contains`). -/
def wrapping_contains {α : Type} [LinearOrder α] (start end_ elt : α) : Bool :=
  if start ≤ end_ then decide (start ≤ elt) && decide (elt ≤ end_)
  else decide (start ≤ elt) || decide (elt ≤ end_)

/-- Intersection of two half-open ranges; empty results are rejected
(`src/utils/range.rs::range_intersection`). -/
def range_intersection {α : Type} [LinearOrder α] (r1 r2 : Rg α) : Option (Rg α) :=
  let result : Rg α := ⟨max r1.start r2.start, min r1.end_ r2.end_⟩
  if result.start < result.end_ then some result else none

/-- A state-tagged sub-interval of one day (`schedule::TimeRange`): a half-open range of
within-day times with a kind and a comment set. -/
structure TimeRange where
  start : Nat
  end_ : Nat
  kind : RuleKind
  comments : List String
  deriving DecidableEq

/-- A day schedule (`schedule::Schedule`): state-tagged sub-intervals of one day. -/
abbrev Schedule := List TimeRange

/-- A dated output interval (`DateTimeRange`): a half-open range of instants with a
kind and a comment set (`src/utils/range.rs::DateTimeRange`). -/
structure DateTimeRange where
  start : Nat
  end_ : Nat
  kind : RuleKind
  comments : List String
  deriving DecidableEq

/-- First-some choice on options (`Option::or`). -/
def optOr {α : Type} : Option α → Option α → Option α
  | some v, _ => some v
  | none, y => y

/-- Minimum of two optional dates under Rust's `Option` order, where `None` is
smallest: used to fold `Iterator::min` over per-rule hints. -/
def optMin : Option Nat → Option Nat → Option Nat
  | none, _ => none
  | _, none => none
  | some a, some b => some (min a b)

/-- Insert a string into a sorted duplicate-free list (`UniqueSortedVec` behaviour). -/
def insertComment (c : String) : List String → List String
  | [] => [c]
  | d :: rest =>
    if c < d then c :: d :: rest
    else if c = d then d :: rest
    else d :: insertComment c rest

/-- Merge two sorted duplicate-free comment sets (`UniqueSortedVec::union`). -/
def mergeComments (c1 c2 : List String) : List String := c1.foldr insertComment c2

/-- Insert a cut point into a strictly sorted list of cut points. -/
def insertCut (x : Nat) : List Nat → List Nat
  | [] => [x]
  | y :: rest =>
    if x < y then x :: y :: rest
    else if x = y then y :: rest
    else y :: insertCut x rest

/-- All interval endpoints of two schedules, strictly sorted. -/
def cutPoints (a b : Schedule) : List Nat :=
  (a ++ b).foldr (fun tr acc => insertCut tr.start (insertCut tr.end_ acc)) []

/-- The sub-interval of a schedule covering a given time, if any. -/
def coverOf (s : Schedule) (x : Nat) : Option TimeRange :=
  s.find? (fun tr => decide (tr.start ≤ x) && decide (x < tr.end_))

/-- Override priority of a state for overlapping additional rules:
Unknown < Closed < Open (the stronger designation prevails). -/
def kindPriority : RuleKind → Nat
  | .Unknown => 0
  | .Closed => 1
  | .Open => 2

/-- State and comments holding at a time under the overlay of schedule `b` on `a`:
where both cover, the higher-priority state wins and comment sets merge. -/
def addSample (a b : Schedule) (x : Nat) : Option (RuleKind × List String) :=
  match coverOf a x, coverOf b x with
  | some ta, some tb =>
    if kindPriority tb.kind < kindPriority ta.kind then
      some (ta.kind, mergeComments ta.comments tb.comments)
    else
      some (tb.kind, mergeComments ta.comments tb.comments)
  | some ta, none => some (ta.kind, ta.comments)
  | none, some tb => some (tb.kind, tb.comments)
  | none, none => none

/-- Elementary segments between consecutive cut points, tagged by a sampling function. -/
def segsOf (f : Nat → Option (RuleKind × List String)) : List Nat → List TimeRange
  | [] => []
  | [_] => []
  | x :: y :: rest =>
    match f x with
    | some (k, cs) => ⟨x, y, k, cs⟩ :: segsOf f (y :: rest)
    | none => segsOf f (y :: rest)

/-- Modelled from the spec: `Schedule::addition` (file `schedule.rs`, absent from the
sources) overlays two day schedules; where they overlap the higher-priority state wins
(Unknown < Closed < Open) and the comment sets of all contributors merge; resulting
sub-intervals are the elementary segments between interval endpoints. -/
def addition (a b : Schedule) : Schedule := segsOf (addSample a b) (cutPoints a b)

/-- Modelled from the spec: `Schedule::from_ranges` (file `schedule.rs`, absent from the
sources) builds a day schedule from within-day time ranges by taking their union and
tagging every resulting range with the rule's kind and comments. -/
def schedule_from_ranges (rgs : List (Nat × Nat)) (kind : RuleKind) (comments : List String) :
    Schedule :=
  (time_ranges_union (rgs.map (fun p => (⟨p.1, p.2⟩ : Rg Nat)))).map
    (fun r => ⟨r.start, r.end_, kind, comments⟩)

/-- One rule of a rule sequence (`opening_hours_syntax::rules::RuleSequence`).  The day
selector and time selector are the external capabilities of the spec's section 6:
`daySelFilter d` is `day_selector.filter(d, holidays)`, `dayNextChangeHint` is
`day_selector.next_change_hint`, `timeIntervalsAt d` is
`time_selector_intervals_at(ctx, time_selector, d)` and `timeIntervalsAtNextDay d` is
`time_selector_intervals_at_next_day(ctx, time_selector, d)`, both producing
within-day ranges in seconds. -/
structure RuleSequence where
  operator : RuleOperator
  daySelFilter : Nat → Bool
  dayNextChangeHint : Nat → Option Nat
  timeIntervalsAt : Nat → List (Nat × Nat)
  timeIntervalsAtNextDay : Nat → List (Nat × Nat)
  kind : RuleKind
  comments : List String

/-- Evaluation context (`src/context.rs::Context`): the active holiday calendar and the
localization payload, both abstract here (the day selectors close over the calendar). -/
structure Context where
  holidays : Nat
  localize : Nat

/-- The top-level evaluable object (`OpeningHours`): a rule sequence plus its context. -/
structure OpeningHours where
  rules : List RuleSequence
  ctx : Context

/-- Uppercased form of a region code (`str::to_uppercase`, ASCII model). -/
def strUpper (s : String) : String := ⟨s.data.map Char.toUpper⟩

deriving instance DecidableEq for Except

/-- Replace the loaded holidays by the calendar registered for a region code, looked up
case-insensitively in the region registry; an unknown region is a `RegionNotFound`
error (`OpeningHours::with_region`; the registry `REGION_HOLIDAYS` is a parameter). -/
def with_region (registry : List (String × Nat)) (oh : OpeningHours) (region : String) :
    Except Error OpeningHours :=
  match (registry.find? (fun p => p.1 == strUpper region)).map Prod.snd with
  | some cal => .ok { oh with ctx := { oh.ctx with holidays := cal } }
  | none => .error (.RegionNotFound region)

/-- Lower bound on the next date where a different set of rules could match: the
minimum of the per-rule hints, where a rule without a hint yields `None`
(`OpeningHours::next_change_hint`). -/
def next_change_hint (oh : OpeningHours) (date : Nat) : Option Nat :=
  match oh.rules.map (fun rs => rs.dayNextChangeHint date) with
  | [] => none
  | h :: hs => hs.foldl optMin h

/-- The day schedule contributed by one rule for one date: its own intervals when the
day selector accepts the date, plus the spill-over of the previous date when the day
selector accepts that previous date; both contributions are combined additively
(`rule_sequence_schedule_at`). -/
def rule_sequence_schedule_at (rs : RuleSequence) (date : Nat) : Option Schedule :=
  let from_today : Option Schedule :=
    if rs.daySelFilter date then
      some (schedule_from_ranges (rs.timeIntervalsAt date) rs.kind rs.comments)
    else none
  let from_yesterday : Option Schedule :=
    match date with
    | 0 => none
    | prev + 1 =>
      if rs.daySelFilter prev then
        some (schedule_from_ranges (rs.timeIntervalsAtNextDay prev) rs.kind rs.comments)
      else none
  match from_today, from_yesterday with
  | some s1, some s2 => some (addition s1 s2)
  | t, y => optOr t y

/-- One combination step of `schedule_at`: merge the accumulated `(match, schedule)`
pair with the current rule's pair according to the rule's operator
(`OpeningHours::schedule_at`, the `match rules_seq.operator` arm). -/
def combineStep (op : RuleOperator) (prev curr : Bool × Option Schedule) :
    Bool × Option Schedule :=
  match op with
  | .Normal => (curr.1 || prev.1, if curr.1 then curr.2 else optOr prev.2 curr.2)
  | .Additional =>
    (prev.1 || curr.1,
      match prev.2, curr.2 with
      | some p, some c => some (addition p c)
      | p, c => optOr p c)
  | .Fallback => if prev.1 then prev else curr

/-- The accumulated `(match, schedule)` pair after folding a rule list over one date
(the loop body of `OpeningHours::schedule_at`). -/
def scheduleAccum (rules : List RuleSequence) (date : Nat) : Bool × Option Schedule :=
  rules.foldl
    (fun acc rs => combineStep rs.operator acc (rs.daySelFilter date, rule_sequence_schedule_at rs date))
    (false, none)

/-- The day schedule of the whole rule set for one date (`OpeningHours::schedule_at`). -/
def schedule_at (oh : OpeningHours) (date : Nat) : Schedule :=
  ((scheduleAccum oh.rules date).2).getD []

/-- Modelled from the spec: `Schedule::into_iter_filled` (file `schedule.rs`, absent
from the sources) materializes the gaps of a day schedule with the default `Closed`
state so that the day is fully partitioned from `0` to `dayLen`; `cursor` is the time
filled so far. -/
def fillFrom : Nat → Schedule → Schedule
  | cursor, [] => if cursor < dayLen then [⟨cursor, dayLen, .Closed, []⟩] else []
  | cursor, tr :: rest =>
    if cursor < tr.start then ⟨cursor, tr.start, .Closed, []⟩ :: tr :: fillFrom tr.end_ rest
    else tr :: fillFrom tr.end_ rest

/-- The filled day schedule, partitioning the day from `0` to `dayLen`. -/
def into_iter_filled (s : Schedule) : Schedule := fillFrom 0 s

/-- The instant at the cursor of an iterator state: current date paired with the start
of the next unconsumed sub-interval (midnight when the schedule is exhausted). -/
def posOf (s : Nat × Schedule) : Nat :=
  s.1 * dayLen + (match s.2 with | [] => 0 | tr :: _ => tr.start)

/-- The consume loop of the timeline iterator
(`TimeDomainIterator::consume_until_next_kind`): drop leading sub-intervals of the
current kind; when the day is exhausted advance the date by the next-change hint
(falling back to the next day) and, while the new date is before the end instant's
date, install that date's filled schedule and continue.  `fuel` bounds the day
advances; it is always chosen large enough that it never runs out. -/
def consume (oh : OpeningHours) (end_dt : Nat) : Nat → RuleKind → Nat → Schedule →
    Nat × Schedule
  | fuel, k, date, cs =>
    match cs.dropWhile (fun tr => decide (tr.kind = k)), cs with
    | tr' :: rest2, _ => (date, tr' :: rest2)
    | [], [] => (date, [])
    | [], _ :: _ =>
      let d' := (next_change_hint oh date).getD (date + 1)
      if d' < end_dt / dayLen then
        match fuel with
        | 0 => (d', [])
        | fuel' + 1 => consume oh end_dt fuel' k d' (into_iter_filled (schedule_at oh d'))
      else (d', [])

/-- One step of the timeline iterator (`TimeDomainIterator::next`): peek the current
sub-interval, consume the maximal run of its kind, and emit the dated interval from
the run's start to the next sub-interval's start (or midnight of the new date),
clamped to the end instant. -/
def tdNext (oh : OpeningHours) (end_dt : Nat) (s : Nat × Schedule) :
    Option (DateTimeRange × (Nat × Schedule)) :=
  match s.2 with
  | [] => none
  | curr_tr :: _ =>
    let s' := consume oh end_dt (end_dt / dayLen + 1) curr_tr.kind s.1 s.2
    some (⟨s.1 * dayLen + curr_tr.start, min end_dt (posOf s'), curr_tr.kind, curr_tr.comments⟩, s')

/-- Initial iterator state (`TimeDomainIterator::new`): install the start date's filled
schedule (empty when the window is empty) and skip the leading sub-intervals that do
not contain the start time-of-day. -/
def tdInit (oh : OpeningHours) (start_dt end_dt : Nat) : Nat × Schedule :=
  let start_date := start_dt / dayLen
  let start_time := start_dt % dayLen
  let cs : Schedule := if start_dt < end_dt then into_iter_filled (schedule_at oh start_date) else []
  (start_date, cs.dropWhile (fun tr => !(decide (tr.start ≤ start_time) && decide (start_time < tr.end_))))

/-- The whole raw output of the timeline iterator, driven for `fuel` steps (always
chosen large enough that the iterator has terminated). -/
def tdRun (oh : OpeningHours) (end_dt : Nat) : Nat → (Nat × Schedule) → List DateTimeRange
  | 0, _ => []
  | fuel + 1, s =>
    match tdNext oh end_dt s with
    | none => []
    | some (iv, s') => iv :: tdRun oh end_dt fuel s'

/-- Clip a dated interval to the queried window (the closure inside
`OpeningHours::iter_range` and `OpeningHours::intervals`). -/
def clipRange (from_ to_ : Nat) (iv : DateTimeRange) : DateTimeRange :=
  ⟨max iv.start from_, min iv.end_ to_, iv.kind, iv.comments⟩

/-- Bounded interval listing (`OpeningHours::iter_range`): reject `from_` at or past
the ceiling and `to_` strictly past the ceiling, otherwise drive the iterator, keep
intervals starting before `to_` and clip each to `[from_, to_]`. -/
def iter_range (oh : OpeningHours) (from_ to_ : Nat) : Except Error (List DateTimeRange) :=
  if dateLimit ≤ from_ then .error (.DateLimitExceeded from_)
  else if dateLimit < to_ then .error (.DateLimitExceeded to_)
  else .ok (((tdRun oh to_ (to_ + dayLen + 1) (tdInit oh from_ to_)).takeWhile
      (fun iv => decide (iv.start < to_))).map (clipRange from_ to_))

/-- Iteration from an instant to the ceiling (`OpeningHours::iter_from`). -/
def iter_from (oh : OpeningHours) (from_ : Nat) : Except Error (List DateTimeRange) :=
  iter_range oh from_ dateLimit

/-- Convenience interval listing (`OpeningHours::intervals`): iterate from `from_` to_
the ceiling, keep intervals starting before `to_` and clip each to `[from_, to_]`. -/
def intervals (oh : OpeningHours) (from_ to_ : Nat) : Except Error (List DateTimeRange) :=
  match iter_from oh from_ with
  | .error e => .error e
  | .ok l => .ok ((l.takeWhile (fun iv => decide (iv.start < to_))).map (clipRange from_ to_))

/-- Timestamp of the next state change (`OpeningHours::next_change`). -/
def next_change (oh : OpeningHours) (t : Nat) : Except Error Nat :=
  match iter_from oh t with
  | .error e => .error e
  | .ok l => .ok ((l.head?.map (fun iv => iv.end_)).getD dateLimit)

/-- State at an instant (`OpeningHours::state`): the kind of the first interval of the
one-minute probe window `[t, t + 60)`, defaulting to Unknown. -/
def state (oh : OpeningHours) (t : Nat) : Except Error RuleKind :=
  match iter_range oh t (t + 60) with
  | .error e => .error e
  | .ok l => .ok ((l.head?.map (fun iv => iv.kind)).getD .Unknown)

/-- Open check (`OpeningHours::is_open`): strict equality on `state`, any failure is false. -/
def is_open (oh : OpeningHours) (t : Nat) : Bool :=
  match state oh t with
  | .ok .Open => true
  | _ => false

/-- Closed check (`OpeningHours::is_closed`): strict equality on `state`, any failure is false. -/
def is_closed (oh : OpeningHours) (t : Nat) : Bool :=
  match state oh t with
  | .ok .Closed => true
  | _ => false

/-- Unknown check (`OpeningHours::is_unknown`): true for an explicit Unknown state and
for a date-limit-exceeded failure. -/
def is_unknown (oh : OpeningHours) (t : Nat) : Bool :=
  match state oh t with
  | .error (.DateLimitExceeded _) => true
  | .ok .Unknown => true
  | _ => false

/-- Well-formedness of a day schedule from a cursor: sub-intervals are sorted,
non-overlapping, non-empty, start at or after the cursor and end within the day. -/
def wfFrom : Nat → Schedule → Bool
  | _, [] => true
  | c, tr :: rest =>
    decide (c ≤ tr.start) && decide (tr.start < tr.end_) && decide (tr.end_ ≤ dayLen) &&
      wfFrom tr.end_ rest

/-- Interface contract of the external selector capabilities (spec section 6): time
selectors produce non-empty within-day ranges, and a next-change hint is a later date. -/
def RuleWF (rs : RuleSequence) : Prop :=
  (∀ d p, p ∈ rs.timeIntervalsAt d → p.1 < p.2 ∧ p.2 ≤ dayLen) ∧
  (∀ d p, p ∈ rs.timeIntervalsAtNextDay d → p.1 < p.2 ∧ p.2 ≤ dayLen) ∧
  (∀ d h, rs.dayNextChangeHint d = some h → d < h)

/-- Well-formedness of a rule set: every rule satisfies the selector contracts. -/
def OHwf (oh : OpeningHours) : Prop := ∀ rs ∈ oh.rules, RuleWF rs

/-- Whether a list of dated intervals exactly tiles the window `[a, b)`. -/
def tiles (a b : Nat) : List DateTimeRange → Bool
  | [] => a == b
  | iv :: rest => iv.start == a && decide (a < iv.end_) && tiles iv.end_ b rest

/-- Head of the sweep output: the first emitted range keeps the start of the range
currently being merged. -/
theorem unionSweep_head {α : Type} [LinearOrder α] :
    ∀ (l : List (Rg α)) (cur : Rg α), ∃ e rest2, unionSweep cur l = ⟨cur.start, e⟩ :: rest2 := by
  intro l
  induction l with
  | nil => intro cur; exact ⟨cur.end_, [], rfl⟩
  | cons item rest ih =>
    intro cur
    by_cases h : item.start ≤ cur.end_
    · obtain ⟨e, r2, hr⟩ := ih ⟨cur.start, max cur.end_ item.end_⟩
      exact ⟨e, r2, by simpa [unionSweep, h] using hr⟩
    · obtain ⟨e, r2, hr⟩ := ih item
      exact ⟨cur.end_, unionSweep item rest, by simp [unionSweep, h]⟩

/-- The sweep output is sorted by start and strictly separated: every emitted range
ends strictly before the next one starts. -/
theorem unionSweep_chain {α : Type} [LinearOrder α] :
    ∀ (l : List (Rg α)) (cur : Rg α),
      List.Chain' rgLE (cur :: l) →
      List.Chain' (fun a b : Rg α => a.end_ < b.start ∧ a.start ≤ b.start) (unionSweep cur l) := by
  intro l
  induction l with
  | nil => intro cur _; simp [unionSweep]
  | cons item rest ih =>
    intro cur hchain
    have h1 : rgLE cur item := List.rel_of_chain_cons hchain
    have h2 : List.Chain' rgLE (item :: rest) := List.chain'_cons'.mp hchain |>.2
    by_cases h : item.start ≤ cur.end_
    · have : List.Chain' rgLE ((⟨cur.start, max cur.end_ item.end_⟩ : Rg α) :: rest) := by
        cases rest with
        | nil => simp
        | cons b rest' =>
          have hib : rgLE item b := List.rel_of_chain_cons h2
          exact List.chain'_cons.mpr ⟨le_trans h1 hib, (List.chain'_cons.mp h2).2⟩
      simpa [unionSweep, h] using ih _ this
    · have hsep : cur.end_ < item.start := lt_of_not_le h
      obtain ⟨e, r2, hr⟩ := unionSweep_head rest item
      have htail := ih item h2
      simp only [unionSweep, h, if_false]
      rw [hr] at htail ⊢
      exact List.chain'_cons.mpr ⟨⟨hsep, h1⟩, htail⟩

/-- Sweeping a strictly separated list merges nothing and returns it unchanged. -/
theorem unionSweep_fixed {α : Type} [LinearOrder α] :
    ∀ (l : List (Rg α)) (cur : Rg α),
      List.Chain' (fun a b : Rg α => a.end_ < b.start) (cur :: l) →
      unionSweep cur l = cur :: l := by
  intro l
  induction l with
  | nil => intro cur _; rfl
  | cons item rest ih =>
    intro cur hchain
    have h1 : cur.end_ < item.start := (List.chain'_cons.mp hchain).1
    have h2 := (List.chain'_cons.mp hchain).2
    have : ¬ item.start ≤ cur.end_ := not_le.mpr h1
    simp only [unionSweep, this, if_false]
    rw [ih item h2]

/-- The output of `time_ranges_union` is sorted by start and strictly separated. -/
theorem time_ranges_union_chain {α : Type} [LinearOrder α] (ranges : List (Rg α)) :
    List.Chain' (fun a b : Rg α => a.end_ < b.start ∧ a.start ≤ b.start)
      (time_ranges_union ranges) := by
  unfold time_ranges_union
  cases h : List.insertionSort rgLE ranges with
  | nil => simp
  | cons c rest =>
    apply unionSweep_chain
    have hs := List.sorted_insertionSort rgLE ranges
    rw [h] at hs
    exact hs.chain'

/-- C7: the range-union operation is idempotent: applying `time_ranges_union` to its
own output yields exactly the same sequence of ranges. -/
theorem time_ranges_union_idempotent {α : Type} [LinearOrder α] (ranges : List (Rg α)) :
    time_ranges_union (time_ranges_union ranges) = time_ranges_union ranges := by
  have hchain := time_ranges_union_chain ranges
  have hpair : List.Pairwise rgLE (time_ranges_union ranges) :=
    List.chain'_iff_pairwise.mp (hchain.imp (fun a b h => h.2))
  have hsep : List.Chain' (fun a b : Rg α => a.end_ < b.start) (time_ranges_union ranges) :=
    hchain.imp (fun a b h => h.1)
  generalize hout : time_ranges_union ranges = u at hpair hsep
  unfold time_ranges_union
  rw [List.Sorted.insertionSort_eq hpair]
  cases u with
  | nil => rfl
  | cons c rest => exact unionSweep_fixed rest c hsep

/-- C7 witness: idempotence evaluated on a concrete collection of ranges. -/
theorem time_ranges_union_idempotent_witness :
    time_ranges_union (time_ranges_union ([⟨10, 20⟩, ⟨15, 30⟩, ⟨40, 50⟩, ⟨5, 12⟩] : List (Rg Nat))) =
      time_ranges_union ([⟨10, 20⟩, ⟨15, 30⟩, ⟨40, 50⟩, ⟨5, 12⟩] : List (Rg Nat)) :=
  time_ranges_union_idempotent [⟨10, 20⟩, ⟨15, 30⟩, ⟨40, 50⟩, ⟨5, 12⟩]

/-- C8: `wrapping_contains` on a wrapping inclusive range (start greater than end)
accepts exactly the points at or above the start or at or below the end, rejecting
every point strictly between end and start; on a non-wrapping range it coincides with
ordinary inclusive containment. -/
theorem wrapping_contains_spec {α : Type} [LinearOrder α] (lo hi x : α) :
    (hi < lo →
      (wrapping_contains lo hi x = true ↔ (lo ≤ x ∨ x ≤ hi)) ∧
      (hi < x → x < lo → wrapping_contains lo hi x = false)) ∧
    (lo ≤ hi → (wrapping_contains lo hi x = true ↔ (lo ≤ x ∧ x ≤ hi))) := by
  constructor
  · intro hlt
    have hnle : ¬ lo ≤ hi := not_le.mpr hlt
    constructor
    · simp [wrapping_contains, hnle]
    · intro h1 h2
      simp only [wrapping_contains, hnle, if_false, Bool.or_eq_false_iff,
        decide_eq_false_iff_not]
      exact ⟨not_le.mpr h2, not_le.mpr h1⟩
  · intro hle
    simp [wrapping_contains, hle]

/-- C8 witness: the wrapping range `22..=2` (hours of a day) contains 23 and 1 but not
12, and the plain range `8..=17` behaves as ordinary containment. -/
theorem wrapping_contains_spec_witness :
    wrapping_contains (22 : Nat) 2 23 = true ∧ wrapping_contains (22 : Nat) 2 1 = true ∧
      wrapping_contains (22 : Nat) 2 12 = false ∧ wrapping_contains (8 : Nat) 17 12 = true := by
  refine ⟨?_, ?_, ?_, ?_⟩
  · exact ((wrapping_contains_spec 22 2 23).1 (by decide)).1.mpr (Or.inl (by decide))
  · exact ((wrapping_contains_spec 22 2 1).1 (by decide)).1.mpr (Or.inr (by decide))
  · exact ((wrapping_contains_spec 22 2 12).1 (by decide)).2 (by decide) (by decide)
  · exact ((wrapping_contains_spec 8 17 12).2 (by decide)).mpr ⟨by decide, by decide⟩

/-- A concrete always-matching, open-all-day rule set (one Normal rule, no hint),
used for concrete evaluations. -/
def ohAllOpen : OpeningHours :=
  ⟨[⟨.Normal, fun _ => true, fun _ => none, fun _ => [(0, dayLen)], fun _ => [], .Open, []⟩], ⟨0, 0⟩⟩

/-- C2 counterexample: querying `iter_range` with `to_` exactly at the Date Ceiling is
accepted (no error), although the claim requires an error for `to_` at or after the
ceiling; the check in the code is strict (`to > *DATE_LIMIT`). -/
theorem iter_range_at_ceiling_ok :
    (iter_range ohAllOpen 0 dateLimit).isOk = true ∧ dateLimit ≤ dateLimit :=
  ⟨rfl, Nat.le_refl _⟩

/-- C2 amended: `iter_range` fails with the date-limit error exactly when `from_` is at
or after the ceiling or `to_` is strictly after the ceiling; otherwise it returns a
sequence of intervals. -/
theorem iter_range_error_iff (oh : OpeningHours) (from_ to_ : Nat) :
    ((∃ t, iter_range oh from_ to_ = .error (.DateLimitExceeded t)) ↔
      (dateLimit ≤ from_ ∨ dateLimit < to_)) ∧
    (¬ (dateLimit ≤ from_ ∨ dateLimit < to_) → ∃ l, iter_range oh from_ to_ = .ok l) := by
  unfold iter_range
  by_cases h1 : dateLimit ≤ from_
  · simp [h1]
  · by_cases h2 : dateLimit < to_
    · simp [h1, h2]
    · simp [h1, h2]

/-- C2 amended witness: the error condition evaluated at the ceiling boundary. -/
theorem iter_range_error_iff_witness :
    (∃ t, iter_range ohAllOpen dateLimit 0 = .error (.DateLimitExceeded t)) ∧
      (∃ l, iter_range ohAllOpen 0 60 = .ok l) := by
  constructor
  · exact (iter_range_error_iff ohAllOpen dateLimit 0).1.mpr (Or.inl (Nat.le_refl _))
  · exact (iter_range_error_iff ohAllOpen 0 60).2 (by decide)

/-- C10: for an instant strictly below the ceiling but within one minute of it,
`state` fails with the date-limit error for the end of its one-minute probe window,
so `is_open` and `is_closed` are false and `is_unknown` is true. -/
theorem state_near_ceiling (oh : OpeningHours) (t : Nat)
    (h1 : dateLimit - 60 < t) (h2 : t < dateLimit) :
    state oh t = .error (.DateLimitExceeded (t + 60)) ∧
    is_open oh t = false ∧ is_closed oh t = false ∧ is_unknown oh t = true := by
  have h60 : (60 : Nat) ≤ dateLimit := by norm_num [dateLimit, dateLimitDays, dayLen]
  have hfrom : ¬ dateLimit ≤ t := Nat.not_le.mpr h2
  have hto : dateLimit < t + 60 := by omega
  have hstate : state oh t = .error (.DateLimitExceeded (t + 60)) := by
    unfold state iter_range
    simp [hfrom, hto]
  exact ⟨hstate, by simp [is_open, hstate], by simp [is_closed, hstate],
    by simp [is_unknown, hstate]⟩

/-- C10 witness: the theorem applied thirty seconds before the ceiling. -/
theorem state_near_ceiling_witness :
    state ohAllOpen (dateLimit - 30) =
        .error (.DateLimitExceeded (dateLimit - 30 + 60)) ∧
      is_open ohAllOpen (dateLimit - 30) = false ∧
      is_closed ohAllOpen (dateLimit - 30) = false ∧
      is_unknown ohAllOpen (dateLimit - 30) = true :=
  state_near_ceiling ohAllOpen (dateLimit - 30) (by decide) (by decide)

/-- C9: `with_region` installs the calendar registered under the uppercased region
code, keeping every other part of the object unchanged, and fails with the
region-not-found error when no registration exists. -/
theorem with_region_spec (registry : List (String × Nat)) (oh : OpeningHours) (region : String) :
    (∀ cal, (registry.find? (fun p => p.1 == strUpper region)).map Prod.snd = some cal →
      with_region registry oh region =
        .ok { rules := oh.rules, ctx := { holidays := cal, localize := oh.ctx.localize } }) ∧
    ((registry.find? (fun p => p.1 == strUpper region)).map Prod.snd = none →
      with_region registry oh region = .error (.RegionNotFound region)) := by
  constructor
  · intro cal h
    unfold with_region
    rw [h]
  · intro h
    unfold with_region
    rw [h]

/-- C9 witness: a lookup succeeding through case-insensitive matching, and a failing
lookup, both on a concrete registry. -/
theorem with_region_spec_witness :
    with_region [("FR", 7), ("DE", 9)] ohAllOpen "fr" =
        .ok { rules := ohAllOpen.rules, ctx := { holidays := 7, localize := ohAllOpen.ctx.localize } } ∧
      with_region [("FR", 7), ("DE", 9)] ohAllOpen "xx" = .error (.RegionNotFound "xx") := by
  constructor
  · exact (with_region_spec [("FR", 7), ("DE", 9)] ohAllOpen "fr").1 7 (by decide)
  · exact (with_region_spec [("FR", 7), ("DE", 9)] ohAllOpen "xx").2 (by decide)

/-- C5: a Normal rule's combination step produces the disjunction of the matches; its
schedule is the rule's own schedule when the rule's day selector matched, otherwise the
prior accumulated schedule when one exists, and the rule's own (e.g. spillover-only)
schedule only when no prior accumulated schedule exists. -/
theorem combineStep_normal_spec (pm cm : Bool) (pe ce : Option Schedule) :
    (combineStep .Normal (pm, pe) (cm, ce)).1 = (cm || pm) ∧
    (cm = true → (combineStep .Normal (pm, pe) (cm, ce)).2 = ce) ∧
    (cm = false → ∀ s, pe = some s → (combineStep .Normal (pm, pe) (cm, ce)).2 = some s) ∧
    (cm = false → pe = none → (combineStep .Normal (pm, pe) (cm, ce)).2 = ce) := by
  refine ⟨rfl, ?_, ?_, ?_⟩
  · intro h; simp [combineStep, h]
  · intro h s hs; simp [combineStep, h, hs, optOr]
  · intro h hn; simp [combineStep, h, hn, optOr]

/-- C5 witness: the Normal step evaluated on concrete match flags and schedules. -/
theorem combineStep_normal_spec_witness :
    (combineStep .Normal (true, some [⟨0, 60, .Open, []⟩]) (false, some [⟨60, 120, .Closed, []⟩])).2 =
        some [⟨0, 60, .Open, []⟩] ∧
      (combineStep .Normal (false, none) (false, some [⟨60, 120, .Closed, []⟩])).2 =
        some [⟨60, 120, .Closed, []⟩] ∧
      (combineStep .Normal (true, some [⟨0, 60, .Open, []⟩]) (true, some [⟨60, 120, .Closed, []⟩])).2 =
        some [⟨60, 120, .Closed, []⟩] := by
  refine ⟨?_, ?_, ?_⟩
  · exact (combineStep_normal_spec true false (some [⟨0, 60, .Open, []⟩])
      (some [⟨60, 120, .Closed, []⟩])).2.2.1 rfl [⟨0, 60, .Open, []⟩] rfl
  · exact (combineStep_normal_spec false false none (some [⟨60, 120, .Closed, []⟩])).2.2.2 rfl rfl
  · exact (combineStep_normal_spec true true (some [⟨0, 60, .Open, []⟩])
      (some [⟨60, 120, .Closed, []⟩])).2.1 rfl

/-- Every combination step preserves an accumulated match. -/
theorem combineStep_keeps_match (op : RuleOperator) (prev curr : Bool × Option Schedule)
    (h : prev.1 = true) : (combineStep op prev curr).1 = true := by
  cases op <;> simp [combineStep, h]

/-- Folding further rules preserves an accumulated match. -/
theorem scheduleAccum_keeps_match (date : Nat) :
    ∀ (rules : List RuleSequence) (a : Bool × Option Schedule), a.1 = true →
      (rules.foldl
        (fun acc rs =>
          combineStep rs.operator acc (rs.daySelFilter date, rule_sequence_schedule_at rs date))
        a).1 = true := by
  intro rules
  induction rules with
  | nil => intro a h; exact h
  | cons r rest ih =>
    intro a h
    exact ih _ (combineStep_keeps_match r.operator a _ h)

/-- A Fallback step applied to an accumulated pair that already matched is the identity. -/
theorem combineStep_fallback_id (prev curr : Bool × Option Schedule) (h : prev.1 = true) :
    combineStep .Fallback prev curr = prev := by
  simp [combineStep, h]

/-- C4: once the rules before it have produced a match for a date, a later Fallback
rule is fully inert: removing it changes neither the accumulated pair nor the final
day schedule, regardless of its own match. -/
theorem fallback_inert (pre mid post : List RuleSequence) (r : RuleSequence) (ctx : Context)
    (date : Nat) (hop : r.operator = .Fallback)
    (hmatch : (scheduleAccum pre date).1 = true) :
    scheduleAccum (pre ++ mid ++ r :: post) date = scheduleAccum (pre ++ mid ++ post) date ∧
    schedule_at ⟨pre ++ mid ++ r :: post, ctx⟩ date = schedule_at ⟨pre ++ mid ++ post, ctx⟩ date := by
  have key : scheduleAccum (pre ++ mid ++ r :: post) date =
      scheduleAccum (pre ++ mid ++ post) date := by
    unfold scheduleAccum at hmatch ⊢
    rw [List.foldl_append, List.foldl_append, List.foldl_append, List.foldl_append,
      List.foldl_cons]
    have hmid : (List.foldl _ (List.foldl _ (false, none) pre) mid).1 = true :=
      scheduleAccum_keeps_match date mid _ hmatch
    rw [hop, combineStep_fallback_id _ _ hmid]
  exact ⟨key, by unfold schedule_at; rw [show (⟨pre ++ mid ++ r :: post, ctx⟩ : OpeningHours).rules
    = pre ++ mid ++ r :: post from rfl, show (⟨pre ++ mid ++ post, ctx⟩ : OpeningHours).rules
    = pre ++ mid ++ post from rfl, key]⟩

/-- A concrete closed-in-the-morning Fallback rule used in the C4 witness. -/
def fbRule : RuleSequence :=
  ⟨.Fallback, fun _ => true, fun _ => none, fun _ => [(0, 43200)], fun _ => [], .Closed, []⟩

/-- C4 witness: with an always-matching Normal rule before it, inserting the Fallback
rule leaves the accumulated pair and the day schedule unchanged. -/
theorem fallback_inert_witness :
    scheduleAccum (ohAllOpen.rules ++ [] ++ fbRule :: []) 0 =
        scheduleAccum (ohAllOpen.rules ++ [] ++ []) 0 ∧
      schedule_at ⟨ohAllOpen.rules ++ [] ++ fbRule :: [], ⟨0, 0⟩⟩ 0 =
        schedule_at ⟨ohAllOpen.rules ++ [] ++ [], ⟨0, 0⟩⟩ 0 :=
  fallback_inert ohAllOpen.rules [] [] fbRule ⟨0, 0⟩ 0 rfl (by decide)

/-- Concrete rule "Mo 14:00-25:30": day 0 models Monday 2020-06-01, so day 1 is
Tuesday 2020-06-02.  Modelled from the spec: the external time selector yields the
within-day part `[14:00, 24:00)` when anchored on a date and the next-day spill-over
`[00:00, 01:30)` of the previous date's evaluation. -/
def moRule : RuleSequence :=
  ⟨.Normal, fun d => d % 7 == 0, fun _ => none, fun _ => [(50400, 86400)],
    fun _ => [(0, 5400)], .Open, []⟩

/-- The rule set holding only the rule "Mo 14:00-25:30". -/
def ohMo : OpeningHours := ⟨[moRule], ⟨0, 0⟩⟩

/-- C6: the rule "Mo 14:00-25:30" evaluated on Tuesday 2020-06-02 (day 1) produces
exactly one sub-interval, 00:00 to 01:30 Open, purely as the next-day spillover of
Monday's match: the day selector rejects the Tuesday itself while accepting Monday. -/
theorem monday_spillover :
    schedule_at ohMo 1 = [⟨0, 5400, .Open, []⟩] ∧
      rule_sequence_schedule_at moRule 1 = some [⟨0, 5400, .Open, []⟩] ∧
      moRule.daySelFilter 1 = false ∧ moRule.daySelFilter 0 = true := by
  refine ⟨?_, ?_, rfl, rfl⟩ <;> decide

/-- Lowering the cursor preserves schedule well-formedness. -/
theorem wfFrom_mono : ∀ (s : Schedule) (c c' : Nat), c' ≤ c → wfFrom c s = true → wfFrom c' s = true := by
  intro s
  induction s with
  | nil => intro c c' _ _; rfl
  | cons tr rest _ =>
    intro c c' hle h
    simp only [wfFrom, Bool.and_eq_true, decide_eq_true_eq] at h ⊢
    exact ⟨⟨⟨le_trans hle h.1.1.1, h.1.1.2⟩, h.1.2⟩, h.2⟩

/-- Every member of a well-formed schedule starts at or after the cursor, is non-empty
and ends within the day. -/
theorem wfFrom_mem : ∀ (s : Schedule) (c : Nat), wfFrom c s = true →
    ∀ tr ∈ s, c ≤ tr.start ∧ tr.start < tr.end_ ∧ tr.end_ ≤ dayLen := by
  intro s
  induction s with
  | nil => intro c _ tr htr; cases htr
  | cons hd rest ih =>
    intro c h tr htr
    simp only [wfFrom, Bool.and_eq_true, decide_eq_true_eq] at h
    rcases List.mem_cons.mp htr with rfl | hmem
    · exact ⟨h.1.1.1, h.1.1.2, h.1.2⟩
    · have := ih hd.end_ h.2 tr hmem
      exact ⟨le_trans (le_trans h.1.1.1 (le_of_lt h.1.1.2)) this.1, this.2⟩

/-- Dropping a prefix preserves schedule well-formedness. -/
theorem wfFrom_dropWhile : ∀ (s : Schedule) (c : Nat) (p : TimeRange → Bool),
    wfFrom c s = true → wfFrom c (s.dropWhile p) = true := by
  intro s
  induction s with
  | nil => intro c p h; exact h
  | cons tr rest ih =>
    intro c p h
    simp only [wfFrom, Bool.and_eq_true, decide_eq_true_eq] at h
    rw [List.dropWhile_cons]
    by_cases hp : p tr = true
    · simp only [hp, if_true]
      exact wfFrom_mono _ _ _ (le_trans h.1.1.1 (le_of_lt h.1.1.2)) (ih tr.end_ p h.2)
    · simp only [hp, if_false]
      simp only [wfFrom, Bool.and_eq_true, decide_eq_true_eq]
      exact ⟨⟨⟨h.1.1.1, h.1.1.2⟩, h.1.2⟩, h.2⟩

/-- The ranges produced by the union sweep are non-empty and stay within the bound of
the inputs. -/
theorem unionSweep_bounds :
    ∀ (l : List (Rg Nat)) (cur : Rg Nat),
      cur.start < cur.end_ ∧ cur.end_ ≤ dayLen → (∀ x ∈ l, x.start < x.end_ ∧ x.end_ ≤ dayLen) →
      ∀ r ∈ unionSweep cur l, r.start < r.end_ ∧ r.end_ ≤ dayLen := by
  intro l
  induction l with
  | nil =>
    intro cur hcur _ r hr
    simp only [unionSweep, List.mem_singleton] at hr
    exact hr ▸ hcur
  | cons item rest ih =>
    intro cur hcur hl r hr
    have hitem := hl item (List.mem_cons_self _ _)
    have hrest : ∀ x ∈ rest, x.start < x.end_ ∧ x.end_ ≤ dayLen :=
      fun x hx => hl x (List.mem_cons_of_mem _ hx)
    by_cases h : item.start ≤ cur.end_
    · simp only [unionSweep, h, if_true] at hr
      refine ih ⟨cur.start, max cur.end_ item.end_⟩
        ⟨lt_of_lt_of_le hcur.1 (le_max_left _ _), max_le hcur.2 hitem.2⟩ hrest r hr
    · simp only [unionSweep, h, if_false] at hr
      rcases List.mem_cons.mp hr with rfl | hmem
      · exact hcur
      · exact ih item hitem hrest r hmem

/-- Every range produced by `time_ranges_union` is non-empty and within the day when
every input range is. -/
theorem time_ranges_union_bounds (ranges : List (Rg Nat))
    (h : ∀ x ∈ ranges, x.start < x.end_ ∧ x.end_ ≤ dayLen) :
    ∀ r ∈ time_ranges_union ranges, r.start < r.end_ ∧ r.end_ ≤ dayLen := by
  unfold time_ranges_union
  cases hs : List.insertionSort rgLE ranges with
  | nil => intro r hr; cases hr
  | cons c rest =>
    have hmem : ∀ x ∈ c :: rest, x.start < x.end_ ∧ x.end_ ≤ dayLen := by
      intro x hx
      apply h
      have : x ∈ List.insertionSort rgLE ranges := hs ▸ hx
      exact (List.mem_insertionSort rgLE).mp this
    exact unionSweep_bounds rest c (hmem c (List.mem_cons_self _ _))
      (fun x hx => hmem x (List.mem_cons_of_mem _ hx))

/-- A sorted, separated, bounded list of sub-intervals is well-formed from any cursor
at or before its head. -/
theorem wfFrom_of_chain : ∀ (l : Schedule) (c : Nat),
    List.Chain' (fun a b : TimeRange => a.end_ ≤ b.start) l →
    (∀ tr ∈ l, tr.start < tr.end_ ∧ tr.end_ ≤ dayLen) →
    (∀ b, l.head? = some b → c ≤ b.start) →
    wfFrom c l = true := by
  intro l
  induction l with
  | nil => intro c _ _ _; rfl
  | cons tr rest ih =>
    intro c hchain hbound hhead
    have h1 := hbound tr (List.mem_cons_self _ _)
    simp only [wfFrom, Bool.and_eq_true, decide_eq_true_eq]
    refine ⟨⟨⟨hhead tr rfl, h1.1⟩, h1.2⟩, ?_⟩
    refine ih tr.end_ (List.chain'_cons'.mp hchain).2
      (fun x hx => hbound x (List.mem_cons_of_mem _ hx)) ?_
    intro b hb
    have := (List.chain'_cons'.mp hchain).1 b hb
    exact this

/-- The schedule built by `schedule_from_ranges` is well-formed when the selector
output satisfies the interface contract. -/
theorem schedule_from_ranges_wf (rgs : List (Nat × Nat)) (k : RuleKind) (cs : List String)
    (h : ∀ p ∈ rgs, p.1 < p.2 ∧ p.2 ≤ dayLen) :
    wfFrom 0 (schedule_from_ranges rgs k cs) = true := by
  unfold schedule_from_ranges
  have hin : ∀ x ∈ rgs.map (fun p => (⟨p.1, p.2⟩ : Rg Nat)), x.start < x.end_ ∧ x.end_ ≤ dayLen := by
    intro x hx
    obtain ⟨p, hp, rfl⟩ := List.mem_map.mp hx
    exact h p hp
  have hb := time_ranges_union_bounds _ hin
  have hc := time_ranges_union_chain (rgs.map (fun p => (⟨p.1, p.2⟩ : Rg Nat)))
  apply wfFrom_of_chain
  · exact (List.chain'_map _).mpr (hc.imp (fun a b hab => le_of_lt hab.1))
  · intro tr htr
    obtain ⟨r, hr, rfl⟩ := List.mem_map.mp htr
    exact hb r hr
  · intro b _; exact Nat.zero_le _

/-- Membership in `insertCut`. -/
theorem mem_insertCut : ∀ (l : List Nat) (x y : Nat), y ∈ insertCut x l → y = x ∨ y ∈ l := by
  intro l
  induction l with
  | nil => intro x y h; simp only [insertCut, List.mem_singleton] at h; exact Or.inl h
  | cons z rest ih =>
    intro x y h
    by_cases h1 : x < z
    · simp only [insertCut, h1, if_true] at h
      rcases List.mem_cons.mp h with rfl | h' <;> [exact Or.inl rfl; exact Or.inr h']
    · by_cases h2 : x = z
      · subst h2
        simp only [insertCut, if_neg (lt_irrefl x), if_pos rfl] at h
        exact Or.inr h
      · simp only [insertCut, h1, if_false, h2, if_false] at h
        rcases List.mem_cons.mp h with rfl | h'
        · exact Or.inr (List.mem_cons_self _ _)
        · rcases ih x y h' with h'' | h''
          · exact Or.inl h''
          · exact Or.inr (List.mem_cons_of_mem _ h'')

/-- The head of `insertCut` is either the inserted point or the previous head. -/
theorem insertCut_head : ∀ (l : List Nat) (x : Nat),
    ∃ z rest, insertCut x l = z :: rest ∧ (z = x ∨ l.head? = some z) := by
  intro l x
  cases l with
  | nil => exact ⟨x, [], rfl, Or.inl rfl⟩
  | cons z rest =>
    by_cases h1 : x < z
    · exact ⟨x, z :: rest, by simp [insertCut, h1], Or.inl rfl⟩
    · by_cases h2 : x = z
      · exact ⟨z, rest, by simp [insertCut, h1, h2], Or.inr rfl⟩
      · exact ⟨z, insertCut x rest, by simp [insertCut, h1, h2], Or.inr rfl⟩

/-- `insertCut` preserves strict sortedness. -/
theorem insertCut_chain : ∀ (l : List Nat) (x : Nat),
    List.Chain' (· < ·) l → List.Chain' (· < ·) (insertCut x l) := by
  intro l
  induction l with
  | nil => intro x _; simp [insertCut]
  | cons z rest ih =>
    intro x hchain
    have htail := (List.chain'_cons'.mp hchain).2
    by_cases h1 : x < z
    · simp only [insertCut, h1, if_true]
      exact List.chain'_cons'.mpr ⟨fun b hb => by cases hb; exact h1, hchain⟩
    · by_cases h2 : x = z
      · subst h2
        simp only [insertCut, if_neg (lt_irrefl x), if_pos rfl]
        exact hchain
      · have hzx : z < x := lt_of_le_of_ne (not_lt.mp h1) (fun he => h2 he.symm)
        simp only [insertCut, h1, if_false, h2, if_false]
        obtain ⟨w, r2, hw, hd⟩ := insertCut_head rest x
        rw [hw]
        refine List.chain'_cons.mpr ⟨?_, hw ▸ ih x htail⟩
        rcases hd with rfl | hd
        · exact hzx
        · exact (List.chain'_cons'.mp hchain).1 w hd

/-- The cut points of two schedules are strictly sorted. -/
theorem cutPoints_chain (a b : Schedule) : List.Chain' (· < ·) (cutPoints a b) := by
  unfold cutPoints
  induction (a ++ b) with
  | nil => simp
  | cons tr rest ih =>
    exact insertCut_chain _ _ (insertCut_chain _ _ ih)

/-- Every cut point of two schedules is an endpoint of one of their sub-intervals. -/
theorem cutPoints_mem (a b : Schedule) :
    ∀ x ∈ cutPoints a b, ∃ tr ∈ a ++ b, x = tr.start ∨ x = tr.end_ := by
  unfold cutPoints
  induction (a ++ b) with
  | nil => intro x hx; cases hx
  | cons tr rest ih =>
    intro x hx
    rcases mem_insertCut _ _ _ hx with rfl | hx'
    · exact ⟨tr, List.mem_cons_self _ _, Or.inl rfl⟩
    · rcases mem_insertCut _ _ _ hx' with rfl | hx''
      · exact ⟨tr, List.mem_cons_self _ _, Or.inr rfl⟩
      · obtain ⟨tr', htr', hor⟩ := ih x hx''
        exact ⟨tr', List.mem_cons_of_mem _ htr', hor⟩

/-- The segments cut from a strictly sorted, bounded list of cut points form a
well-formed schedule. -/
theorem segsOf_wf (f : Nat → Option (RuleKind × List String)) :
    ∀ (cuts : List Nat) (c : Nat),
      List.Chain' (· < ·) cuts → (∀ x ∈ cuts, x ≤ dayLen) →
      (∀ z, cuts.head? = some z → c ≤ z) →
      wfFrom c (segsOf f cuts) = true := by
  intro cuts
  induction cuts with
  | nil => intro c _ _ _; rfl
  | cons x tail ih =>
    intro c hchain hbound hhead
    cases tail with
    | nil => rfl
    | cons y rest =>
      have hxy : x < y := (List.chain'_cons.mp hchain).1
      have htail := (List.chain'_cons.mp hchain).2
      have hboundt : ∀ z ∈ y :: rest, z ≤ dayLen := fun z hz => hbound z (List.mem_cons_of_mem _ hz)
      cases hf : f x with
      | none =>
        simp only [segsOf, hf]
        exact ih c htail hboundt (fun z hz => by cases hz; exact le_trans (hhead x rfl) (le_of_lt hxy))
      | some kc =>
        simp only [segsOf, hf]
        simp only [wfFrom, Bool.and_eq_true, decide_eq_true_eq]
        refine ⟨⟨⟨hhead x rfl, hxy⟩, hbound y (List.mem_cons_of_mem _ (List.mem_cons_self _ _))⟩, ?_⟩
        exact ih y htail hboundt (fun z hz => by cases hz; exact le_refl _)

/-- The overlay of two well-formed schedules is well-formed. -/
theorem addition_wf (a b : Schedule) (ha : wfFrom 0 a = true) (hb : wfFrom 0 b = true) :
    wfFrom 0 (addition a b) = true := by
  unfold addition
  apply segsOf_wf
  · exact cutPoints_chain a b
  · intro x hx
    obtain ⟨tr, htr, hor⟩ := cutPoints_mem a b x hx
    have : tr.start < tr.end_ ∧ tr.end_ ≤ dayLen := by
      rcases List.mem_append.mp htr with h | h
      · exact (wfFrom_mem a 0 ha tr h).2
      · exact (wfFrom_mem b 0 hb tr h).2
    rcases hor with rfl | rfl
    · exact le_trans (le_of_lt this.1) this.2
    · exact this.2
  · intro z _; exact Nat.zero_le _

/-- The schedule contributed by a well-formed rule for any date is well-formed. -/
theorem rule_sequence_schedule_at_wf (rs : RuleSequence) (date : Nat) (hrs : RuleWF rs) :
    ∀ s, rule_sequence_schedule_at rs date = some s → wfFrom 0 s = true := by
  intro s hs
  unfold rule_sequence_schedule_at at hs
  have hwf1 : ∀ d, wfFrom 0 (schedule_from_ranges (rs.timeIntervalsAt d) rs.kind rs.comments) = true :=
    fun d => schedule_from_ranges_wf _ _ _ (fun p hp => hrs.1 d p hp)
  have hwf2 : ∀ d, wfFrom 0 (schedule_from_ranges (rs.timeIntervalsAtNextDay d) rs.kind rs.comments) = true :=
    fun d => schedule_from_ranges_wf _ _ _ (fun p hp => hrs.2.1 d p hp)
  by_cases h1 : rs.daySelFilter date = true
  · cases date with
    | zero =>
      simp only [h1, if_true, optOr] at hs
      cases hs
      exact hwf1 0
    | succ prev =>
      by_cases h2 : rs.daySelFilter prev = true
      · simp only [h1, if_true, h2] at hs
        cases hs
        exact addition_wf _ _ (hwf1 _) (hwf2 _)
      · simp only [h1, if_true, h2, if_false, optOr] at hs
        cases hs
        exact hwf1 _
  · rw [Bool.not_eq_true] at h1
    cases date with
    | zero => simp only [h1] at hs; cases hs
    | succ prev =>
      by_cases h2 : rs.daySelFilter prev = true
      · simp only [h1, h2, if_true, Bool.false_eq_true, if_false, optOr] at hs
        cases hs
        exact hwf2 _
      · simp only [h1, h2, Bool.false_eq_true, if_false, optOr] at hs
        cases hs

/-- A combination step preserves well-formedness of the accumulated schedule. -/
theorem combineStep_wf (op : RuleOperator) (prev curr : Bool × Option Schedule)
    (hp : ∀ s, prev.2 = some s → wfFrom 0 s = true)
    (hc : ∀ s, curr.2 = some s → wfFrom 0 s = true) :
    ∀ s, (combineStep op prev curr).2 = some s → wfFrom 0 s = true := by
  intro s hs
  cases op with
  | Normal =>
    simp only [combineStep] at hs
    by_cases hm : curr.1 = true
    · rw [if_pos hm] at hs; exact hc s hs
    · rw [if_neg hm] at hs
      cases hpe : prev.2 with
      | some p => rw [hpe] at hs; cases hs; exact hp _ hpe
      | none => rw [hpe] at hs; simp only [optOr] at hs; exact hc s hs
  | Additional =>
    simp only [combineStep] at hs
    cases hpe : prev.2 with
    | some p =>
      cases hce : curr.2 with
      | some c =>
        rw [hpe, hce] at hs
        cases hs
        exact addition_wf _ _ (hp _ hpe) (hc _ hce)
      | none => rw [hpe, hce] at hs; simp only [optOr] at hs; cases hs; exact hp _ hpe
    | none =>
      cases hce : curr.2 with
      | some c => rw [hpe, hce] at hs; simp only [optOr] at hs; cases hs; exact hc _ hce
      | none => rw [hpe, hce] at hs; simp only [optOr] at hs; cases hs
  | Fallback =>
    simp only [combineStep] at hs
    by_cases hm : prev.1 = true
    · rw [if_pos hm] at hs; exact hp s hs
    · rw [if_neg hm] at hs; exact hc s hs

/-- The day schedule produced by a well-formed rule set is well-formed. -/
theorem schedule_at_wf (oh : OpeningHours) (date : Nat) (hwf : OHwf oh) :
    wfFrom 0 (schedule_at oh date) = true := by
  unfold schedule_at scheduleAccum
  have main : ∀ (rules : List RuleSequence), (∀ rs ∈ rules, RuleWF rs) →
      ∀ (a : Bool × Option Schedule), (∀ s, a.2 = some s → wfFrom 0 s = true) →
      ∀ s, (rules.foldl
        (fun acc rs =>
          combineStep rs.operator acc (rs.daySelFilter date, rule_sequence_schedule_at rs date))
        a).2 = some s → wfFrom 0 s = true := by
    intro rules
    induction rules with
    | nil => intro _ a ha s hs; exact ha s hs
    | cons r rest ih =>
      intro hr a ha s hs
      refine ih (fun rs hrs => hr rs (List.mem_cons_of_mem _ hrs)) _ ?_ s hs
      exact combineStep_wf r.operator a _ ha
        (fun s' hs' => rule_sequence_schedule_at_wf r date (hr r (List.mem_cons_self _ _)) s' hs')
  cases hacc : (List.foldl
      (fun acc rs =>
        combineStep rs.operator acc (rs.daySelFilter date, rule_sequence_schedule_at rs date))
      (false, none) oh.rules).2 with
  | none => rfl
  | some s =>
    simp only [Option.getD_some]
    exact main oh.rules hwf (false, none) (fun s' hs' => by cases hs') s hacc

/-- Filling a well-formed schedule from a cursor within the day yields a schedule
well-formed from that cursor. -/
theorem fillFrom_wf : ∀ (s : Schedule) (c : Nat), wfFrom c s = true → c ≤ dayLen →
    wfFrom c (fillFrom c s) = true := by
  intro s
  induction s with
  | nil =>
    intro c _ hc
    by_cases h : c < dayLen
    · simp only [fillFrom, h, if_true]
      simp [wfFrom, h]
    · simp only [fillFrom, h, if_false]; rfl
  | cons tr rest ih =>
    intro c h hc
    simp only [wfFrom, Bool.and_eq_true, decide_eq_true_eq] at h
    have hrest := ih tr.end_ h.2 h.1.2
    have hsd : tr.start ≤ dayLen := le_trans (le_of_lt h.1.1.2) h.1.2
    by_cases hgap : c < tr.start
    · simp only [fillFrom, hgap, if_true]
      simp [wfFrom, hgap, hsd, h.1.1.2, h.1.2, hrest]
    · simp only [fillFrom, hgap, if_false]
      simp [wfFrom, h.1.1.1, h.1.1.2, h.1.2, hrest]

/-- The filled day schedule of a well-formed schedule is well-formed. -/
theorem into_iter_filled_wf (s : Schedule) (h : wfFrom 0 s = true) :
    wfFrom 0 (into_iter_filled s) = true :=
  fillFrom_wf s 0 h (Nat.zero_le _)

/-- The filled day schedule is never empty: the day is fully partitioned. -/
theorem into_iter_filled_ne_nil (s : Schedule) : into_iter_filled s ≠ [] := by
  unfold into_iter_filled
  cases s with
  | nil =>
    have : (0 : Nat) < dayLen := by norm_num [dayLen]
    simp [fillFrom, this]
  | cons tr rest =>
    by_cases h : 0 < tr.start <;> simp [fillFrom, h]

/-- The hint of a well-formed rule set, when present, is a strictly later date. -/
theorem next_change_hint_gt (oh : OpeningHours) (d h : Nat) (hwf : OHwf oh)
    (hh : next_change_hint oh d = some h) : d < h := by
  unfold next_change_hint at hh
  have main : ∀ (l : List (Option Nat)), (∀ x ∈ l, ∀ v, x = some v → d < v) →
      ∀ (a : Option Nat), (∀ v, a = some v → d < v) →
      ∀ v, l.foldl optMin a = some v → d < v := by
    intro l
    induction l with
    | nil => intro _ a ha v hv; exact ha v hv
    | cons x rest ih =>
      intro hl a ha v hv
      refine ih (fun y hy w hw => hl y (List.mem_cons_of_mem _ hy) w hw) (optMin a x) ?_ v hv
      intro w hw
      cases a with
      | none => simp [optMin] at hw
      | some av =>
        cases x with
        | none => simp [optMin] at hw
        | some xv =>
          simp only [optMin, Option.some.injEq] at hw
          subst hw
          rcases min_cases av xv with ⟨he, _⟩ | ⟨he, _⟩ <;> rw [he]
          · exact ha av rfl
          · exact hl (some xv) (List.mem_cons_self _ _) xv rfl
  cases hrules : oh.rules with
  | nil => rw [hrules] at hh; simp at hh
  | cons r rest =>
    rw [hrules] at hh
    simp only [List.map_cons] at hh
    have hmem : ∀ x ∈ (rest.map (fun rs => rs.dayNextChangeHint d)), ∀ v, x = some v → d < v := by
      intro x hx v hv
      obtain ⟨rs, hrs, rfl⟩ := List.mem_map.mp hx
      exact (hwf rs (hrules ▸ List.mem_cons_of_mem _ hrs)).2.2 d v hv
    exact main _ hmem _
      (fun v hv => (hwf r (hrules ▸ List.mem_cons_self _ _)).2.2 d v hv) h hh

theorem posOf_ge (s : Nat × Schedule) : s.1 * dayLen ≤ posOf s := by
  cases hs : s.2 <;> simp [posOf, hs]

theorem posOf_nil (d : Nat) : posOf (d, ([] : Schedule)) = d * dayLen := by
  simp [posOf]

theorem day_step_le {date d tr_end : Nat} (h1 : date < d) (h2 : tr_end ≤ dayLen) :
    date * dayLen + tr_end ≤ d * dayLen := by
  calc date * dayLen + tr_end ≤ date * dayLen + dayLen := Nat.add_le_add_left h2 _
    _ = (date + 1) * dayLen := by ring
    _ ≤ d * dayLen := Nat.mul_le_mul_right _ h1

theorem consume_nil (oh : OpeningHours) (e fuel : Nat) (k : RuleKind) (date : Nat) :
    consume oh e fuel k date [] = (date, []) := by
  unfold consume
  rfl

theorem consume_within (oh : OpeningHours) (e fuel : Nat) (k : RuleKind) (date : Nat)
    (cs : Schedule) (tr' : TimeRange) (rest2 : Schedule)
    (hdw : cs.dropWhile (fun tr => decide (tr.kind = k)) = tr' :: rest2) :
    consume oh e fuel k date cs = (date, tr' :: rest2) := by
  unfold consume
  rw [hdw]

theorem consume_roll (oh : OpeningHours) (e fuel : Nat) (k : RuleKind) (date : Nat)
    (tr0 : TimeRange) (l2 : Schedule)
    (hdw : (tr0 :: l2).dropWhile (fun tr => decide (tr.kind = k)) = []) :
    consume oh e fuel k date (tr0 :: l2) =
      (let d' := (next_change_hint oh date).getD (date + 1);
       if d' < e / dayLen then
         (match fuel with
          | 0 => (d', [])
          | fuel' + 1 => consume oh e fuel' k d' (into_iter_filled (schedule_at oh d')))
       else (d', [])) := by
  conv_lhs => unfold consume
  rw [hdw]

theorem hint_target_gt (oh : OpeningHours) (date : Nat) (hwf : OHwf oh) :
    date < (next_change_hint oh date).getD (date + 1) := by
  cases hh : next_change_hint oh date with
  | none => simp [Option.getD]
  | some h => simpa [Option.getD] using next_change_hint_gt oh date h hwf hh

theorem consume_spec (oh : OpeningHours) (e : Nat) (hwf : OHwf oh) :
    ∀ (fuel : Nat) (k : RuleKind) (date : Nat) (cs : Schedule), wfFrom 0 cs = true →
      wfFrom 0 (consume oh e fuel k date cs).2 = true ∧
      date ≤ (consume oh e fuel k date cs).1 ∧
      (∀ tr', (consume oh e fuel k date cs).2.head? = some tr' → ¬ tr'.kind = k) ∧
      (∀ tr, cs.head? = some tr → tr.kind = k →
        date * dayLen + tr.end_ ≤ posOf (consume oh e fuel k date cs)) := by
  intro fuel
  induction fuel with
  | zero =>
    intro k date cs hcs
    cases cs with
    | nil =>
      rw [consume_nil]
      refine ⟨rfl, le_refl _, ?_, ?_⟩
      · intro tr' h; cases h
      · intro tr h; cases h
    | cons tr0 l2 =>
      have hwf0 : tr0.end_ ≤ dayLen := by
        simp only [wfFrom, Bool.and_eq_true, decide_eq_true_eq] at hcs
        exact hcs.1.2
      cases hdw : (tr0 :: l2).dropWhile (fun tr => decide (tr.kind = k)) with
      | cons tr' rest2 =>
        rw [consume_within oh e 0 k date _ tr' rest2 hdw]
        refine ⟨?_, le_refl _, ?_, ?_⟩
        · have := wfFrom_dropWhile (tr0 :: l2) 0 (fun tr => decide (tr.kind = k)) hcs
          rw [hdw] at this
          exact this
        · intro x hx
          cases hx
          have := List.head?_dropWhile_not (fun tr => decide (tr.kind = k)) (tr0 :: l2)
          rw [hdw] at this
          simpa using this
        · intro tr htr hk
          cases htr
          have hdw2 : List.dropWhile (fun tr => decide (tr.kind = k)) l2 = tr' :: rest2 := by
            simp only [List.dropWhile_cons, hk] at hdw
            simpa using hdw
          have hmem : tr' ∈ l2 := by
            have hsub := List.dropWhile_sublist (l := l2) (fun tr => decide (tr.kind = k))
            rw [hdw2] at hsub
            exact hsub.mem (List.mem_cons_self _ _)
          have hwfl2 : wfFrom tr0.end_ l2 = true := by
            simp only [wfFrom, Bool.and_eq_true, decide_eq_true_eq] at hcs
            exact hcs.2
          have hstart := (wfFrom_mem l2 tr0.end_ hwfl2 tr' hmem).1
          simp only [posOf]
          exact Nat.add_le_add_left hstart _
      | nil =>
        rw [consume_roll oh e 0 k date tr0 l2 hdw]
        have hd' : date < (next_change_hint oh date).getD (date + 1) := hint_target_gt oh date hwf
        simp only []
        by_cases hlt : (next_change_hint oh date).getD (date + 1) < e / dayLen
        · rw [if_pos hlt]
          refine ⟨rfl, le_of_lt hd', ?_, ?_⟩
          · intro tr' h; cases h
          · intro tr htr hk
            cases htr
            rw [posOf_nil]
            exact day_step_le hd' hwf0
        · rw [if_neg hlt]
          refine ⟨rfl, le_of_lt hd', ?_, ?_⟩
          · intro tr' h; cases h
          · intro tr htr hk
            cases htr
            rw [posOf_nil]
            exact day_step_le hd' hwf0
  | succ fuel' ih =>
    intro k date cs hcs
    cases cs with
    | nil =>
      rw [consume_nil]
      refine ⟨rfl, le_refl _, ?_, ?_⟩
      · intro tr' h; cases h
      · intro tr h; cases h
    | cons tr0 l2 =>
      have hwf0 : tr0.end_ ≤ dayLen := by
        simp only [wfFrom, Bool.and_eq_true, decide_eq_true_eq] at hcs
        exact hcs.1.2
      cases hdw : (tr0 :: l2).dropWhile (fun tr => decide (tr.kind = k)) with
      | cons tr' rest2 =>
        rw [consume_within oh e (fuel' + 1) k date _ tr' rest2 hdw]
        refine ⟨?_, le_refl _, ?_, ?_⟩
        · have := wfFrom_dropWhile (tr0 :: l2) 0 (fun tr => decide (tr.kind = k)) hcs
          rw [hdw] at this
          exact this
        · intro x hx
          cases hx
          have := List.head?_dropWhile_not (fun tr => decide (tr.kind = k)) (tr0 :: l2)
          rw [hdw] at this
          simpa using this
        · intro tr htr hk
          cases htr
          have hdw2 : List.dropWhile (fun tr => decide (tr.kind = k)) l2 = tr' :: rest2 := by
            simp only [List.dropWhile_cons, hk] at hdw
            simpa using hdw
          have hmem : tr' ∈ l2 := by
            have hsub := List.dropWhile_sublist (l := l2) (fun tr => decide (tr.kind = k))
            rw [hdw2] at hsub
            exact hsub.mem (List.mem_cons_self _ _)
          have hwfl2 : wfFrom tr0.end_ l2 = true := by
            simp only [wfFrom, Bool.and_eq_true, decide_eq_true_eq] at hcs
            exact hcs.2
          have hstart := (wfFrom_mem l2 tr0.end_ hwfl2 tr' hmem).1
          simp only [posOf]
          exact Nat.add_le_add_left hstart _
      | nil =>
        rw [consume_roll oh e (fuel' + 1) k date tr0 l2 hdw]
        have hd' : date < (next_change_hint oh date).getD (date + 1) := hint_target_gt oh date hwf
        simp only []
        by_cases hlt : (next_change_hint oh date).getD (date + 1) < e / dayLen
        · rw [if_pos hlt]
          have hfillwf : wfFrom 0 (into_iter_filled
              (schedule_at oh ((next_change_hint oh date).getD (date + 1)))) = true :=
            into_iter_filled_wf _ (schedule_at_wf oh _ hwf)
          obtain ⟨ihwf, ihle, ihhead, _⟩ := ih k ((next_change_hint oh date).getD (date + 1)) _ hfillwf
          refine ⟨ihwf, le_trans (le_of_lt hd') ihle, ihhead, ?_⟩
          intro tr htr hk
          cases htr
          refine le_trans (day_step_le hd' hwf0) ?_
          refine le_trans (Nat.mul_le_mul_right _ ihle) (posOf_ge _)
        · rw [if_neg hlt]
          refine ⟨rfl, le_of_lt hd', ?_, ?_⟩
          · intro tr' h; cases h
          · intro tr htr hk
            cases htr
            rw [posOf_nil]
            exact day_step_le hd' hwf0

theorem tdNext_nil (oh : OpeningHours) (e d : Nat) : tdNext oh e (d, []) = none := rfl

theorem tdNext_cons (oh : OpeningHours) (e d : Nat) (tr : TimeRange) (l2 : Schedule) :
    tdNext oh e (d, tr :: l2) =
      some (⟨d * dayLen + tr.start,
        min e (posOf (consume oh e (e / dayLen + 1) tr.kind d (tr :: l2))), tr.kind, tr.comments⟩,
        consume oh e (e / dayLen + 1) tr.kind d (tr :: l2)) := rfl

theorem tdRun_nil_state (oh : OpeningHours) (e fuel d : Nat) :
    tdRun oh e fuel (d, []) = [] := by
  cases fuel with
  | zero => rfl
  | succ f => simp [tdRun, tdNext_nil]

/-- First element of a raw run: it starts at the state's cursor instant and carries
the head sub-interval's kind and comments. -/
theorem tdRun_first (oh : OpeningHours) (e : Nat) :
    ∀ (fuel : Nat) (s : Nat × Schedule) (iv : DateTimeRange) (l' : List DateTimeRange),
      tdRun oh e fuel s = iv :: l' →
      ∃ tr l2, s.2 = tr :: l2 ∧ iv.start = posOf s ∧ iv.kind = tr.kind ∧
        iv.comments = tr.comments ∧
        iv.end_ = min e (posOf (consume oh e (e / dayLen + 1) tr.kind s.1 s.2)) ∧
        l' = tdRun oh e (fuel - 1) (consume oh e (e / dayLen + 1) tr.kind s.1 s.2) := by
  intro fuel s iv l' h
  cases fuel with
  | zero => cases h
  | succ f =>
    obtain ⟨d, cs⟩ := s
    cases cs with
    | nil => rw [tdRun_nil_state] at h; cases h
    | cons tr l2 =>
      simp only [tdRun, tdNext_cons] at h
      obtain ⟨h1, h2⟩ := List.cons.inj h
      refine ⟨tr, l2, rfl, ?_, ?_, ?_, ?_, ?_⟩
      · rw [← h1]; simp [posOf]
      · rw [← h1]
      · rw [← h1]
      · rw [← h1]
      · rw [← h2]
        simp

/-- The raw output of the iterator is a chain: every interval ends at the clamped
start of the next, consecutive intervals have distinct kinds, and starts strictly
increase. -/
theorem tdRun_chain (oh : OpeningHours) (e : Nat) (hwf : OHwf oh) :
    ∀ (fuel : Nat) (s : Nat × Schedule), wfFrom 0 s.2 = true →
      List.Chain'
        (fun a b : DateTimeRange => a.end_ = min e b.start ∧ a.kind ≠ b.kind ∧ a.start < b.start)
        (tdRun oh e fuel s) := by
  intro fuel
  induction fuel with
  | zero => intro s _; simp [tdRun]
  | succ f ih =>
    intro s hs
    obtain ⟨d, cs⟩ := s
    cases cs with
    | nil => rw [tdRun_nil_state]; simp
    | cons tr l2 =>
      simp only [tdRun, tdNext_cons]
      obtain ⟨cwf, cle, chead, cpos⟩ :=
        consume_spec oh e hwf (e / dayLen + 1) tr.kind d (tr :: l2) hs
      have hpos : d * dayLen + tr.end_ ≤ posOf (consume oh e (e / dayLen + 1) tr.kind d (tr :: l2)) :=
        cpos tr rfl rfl
      have htrlt : tr.start < tr.end_ := by
        simp only [wfFrom, Bool.and_eq_true, decide_eq_true_eq] at hs
        exact hs.1.1.2
      apply List.chain'_cons'.mpr
      refine ⟨?_, ih _ cwf⟩
      intro b hb
      cases hrun : tdRun oh e f (consume oh e (e / dayLen + 1) tr.kind d (tr :: l2)) with
      | nil => rw [hrun] at hb; cases hb
      | cons b0 rest =>
        rw [hrun] at hb
        cases hb
        obtain ⟨tr'', l'', hseq, hbstart, hbkind, _, _, _⟩ := tdRun_first oh e f _ b rest hrun
        refine ⟨?_, ?_, ?_⟩
        · simp only [hbstart]
        · simp only [hbkind]
          intro hcontra
          exact chead tr'' (by rw [hseq]; rfl) hcontra.symm
        · simp only [hbstart]
          calc d * dayLen + tr.start < d * dayLen + tr.end_ := Nat.add_lt_add_left htrlt _
            _ ≤ _ := hpos

/-- Elementwise facts about the raw output: every interval starts at or after the
state's cursor instant, and is non-empty whenever it starts before the end instant. -/
theorem tdRun_mem_facts (oh : OpeningHours) (e : Nat) (hwf : OHwf oh) :
    ∀ (fuel : Nat) (s : Nat × Schedule), wfFrom 0 s.2 = true →
      ∀ iv ∈ tdRun oh e fuel s, posOf s ≤ iv.start ∧ (iv.start < e → iv.start < iv.end_) := by
  intro fuel
  induction fuel with
  | zero => intro s _ iv hm; cases hm
  | succ f ih =>
    intro s hs iv hm
    obtain ⟨d, cs⟩ := s
    cases cs with
    | nil => rw [tdRun_nil_state] at hm; cases hm
    | cons tr l2 =>
      simp only [tdRun, tdNext_cons] at hm
      obtain ⟨cwf, cle, chead, cpos⟩ :=
        consume_spec oh e hwf (e / dayLen + 1) tr.kind d (tr :: l2) hs
      have hpos : d * dayLen + tr.end_ ≤ posOf (consume oh e (e / dayLen + 1) tr.kind d (tr :: l2)) :=
        cpos tr rfl rfl
      have htrlt : tr.start < tr.end_ := by
        simp only [wfFrom, Bool.and_eq_true, decide_eq_true_eq] at hs
        exact hs.1.1.2
      rcases List.mem_cons.mp hm with rfl | hmem
      · refine ⟨by simp [posOf], ?_⟩
        intro hlt
        simp only at hlt ⊢
        refine lt_min hlt ?_
        calc d * dayLen + tr.start < d * dayLen + tr.end_ := Nat.add_lt_add_left htrlt _
          _ ≤ _ := hpos
      · have := ih _ cwf iv hmem
        refine ⟨le_trans ?_ this.1, this.2⟩
        simp only [posOf]
        calc d * dayLen + tr.start ≤ d * dayLen + tr.end_ := Nat.add_le_add_left (le_of_lt htrlt) _
          _ ≤ _ := hpos

theorem chain'_takeWhile {α : Type} {R : α → α → Prop} (p : α → Bool) :
    ∀ (l : List α), List.Chain' R l → List.Chain' R (l.takeWhile p) := by
  intro l
  induction l with
  | nil => intro h; simp
  | cons a rest ih =>
    intro h
    rw [List.takeWhile_cons]
    by_cases hp : p a = true
    · rw [if_pos hp]
      apply List.chain'_cons'.mpr
      refine ⟨?_, ih (List.chain'_cons'.mp h).2⟩
      intro b hb
      cases rest with
      | nil => simp at hb
      | cons c r2 =>
        rw [List.takeWhile_cons] at hb
        by_cases hpc : p c = true
        · rw [if_pos hpc] at hb
          cases hb
          exact (List.chain'_cons.mp h).1
        · rw [if_neg hpc] at hb
          cases hb
    · rw [if_neg hp]
      simp

theorem mem_takeWhile_mem {α : Type} {p : α → Bool} {x : α} {l : List α}
    (h : x ∈ l.takeWhile p) : x ∈ l :=
  (List.takeWhile_sublist p).mem h

theorem tdInit_date (oh : OpeningHours) (from_ to_ : Nat) :
    (tdInit oh from_ to_).1 = from_ / dayLen := rfl

theorem tdInit_wf (oh : OpeningHours) (from_ to_ : Nat) (hwf : OHwf oh) :
    wfFrom 0 (tdInit oh from_ to_).2 = true := by
  unfold tdInit
  by_cases h : from_ < to_
  · simp only [h, if_true]
    exact wfFrom_dropWhile _ 0 _ (into_iter_filled_wf _ (schedule_at_wf oh _ hwf))
  · simp only [h, if_false]
    rfl

theorem tdInit_head (oh : OpeningHours) (from_ to_ : Nat) (tr : TimeRange) (l2 : Schedule)
    (h : (tdInit oh from_ to_).2 = tr :: l2) :
    tr.start ≤ from_ % dayLen ∧ from_ % dayLen < tr.end_ := by
  unfold tdInit at h
  simp only at h
  have := List.head?_dropWhile_not
    (fun tr => !(decide (tr.start ≤ from_ % dayLen) && decide (from_ % dayLen < tr.end_)))
    (if from_ < to_ then into_iter_filled (schedule_at oh (from_ / dayLen)) else [])
  rw [h] at this
  simp only [List.head?_cons] at this
  simpa using this

/-- Clipping a raw chain with a head ending past `from_` yields intervals that are
non-empty, exactly adjacent, of alternating kinds and sorted. -/
theorem clip_props (from_ to_ : Nat) (hft : from_ < to_) :
    ∀ (l : List DateTimeRange),
      List.Chain'
        (fun a b : DateTimeRange => a.end_ = min to_ b.start ∧ a.kind ≠ b.kind ∧ a.start < b.start) l →
      (∀ iv ∈ l, iv.start < to_) →
      (∀ iv ∈ l, iv.start < iv.end_) →
      (∀ iv0, l.head? = some iv0 → from_ < iv0.end_) →
      (∀ iv ∈ l.map (clipRange from_ to_), iv.start < iv.end_) ∧
      List.Chain'
        (fun a b : DateTimeRange => a.end_ = b.start ∧ a.kind ≠ b.kind ∧ a.start < b.start)
        (l.map (clipRange from_ to_)) := by
  intro l
  induction l with
  | nil => intro _ _ _ _; simp
  | cons a rest ih =>
    intro hchain hlt hne hhead
    have ha_lt_to : a.start < to_ := hlt a (List.mem_cons_self _ _)
    have ha_ne : a.start < a.end_ := hne a (List.mem_cons_self _ _)
    have ha_head : from_ < a.end_ := hhead a rfl
    have hclip_a : ∀ iv, iv = clipRange from_ to_ a → iv.start < iv.end_ := by
      intro iv hiv
      subst hiv
      exact lt_min (max_lt ha_ne ha_head) (max_lt ha_lt_to hft)
    cases rest with
    | nil =>
      refine ⟨?_, by simp⟩
      intro iv hm
      simp only [List.map_cons, List.map_nil, List.mem_singleton] at hm
      exact hclip_a iv hm
    | cons b rest2 =>
      obtain ⟨hR, hchain2⟩ := List.chain'_cons.mp hchain
      have hb_lt_to : b.start < to_ := hlt b (List.mem_cons_of_mem _ (List.mem_cons_self _ _))
      have haend : a.end_ = b.start := by
        rw [hR.1]
        exact min_eq_right (le_of_lt hb_lt_to)
      have hfb : from_ < b.start := haend ▸ ha_head
      have hfbe : from_ < b.end_ :=
        lt_trans hfb (hne b (List.mem_cons_of_mem _ (List.mem_cons_self _ _)))
      obtain ⟨ihne, ihchain⟩ := ih hchain2
        (fun iv hm => hlt iv (List.mem_cons_of_mem _ hm))
        (fun iv hm => hne iv (List.mem_cons_of_mem _ hm))
        (fun iv0 h0 => by cases h0; exact hfbe)
      constructor
      · intro iv hm
        rcases List.mem_cons.mp hm with rfl | hm2
        · exact hclip_a _ rfl
        · exact ihne iv hm2
      · refine List.chain'_cons.mpr ⟨?_, ihchain⟩
        refine ⟨?_, hR.2.1, ?_⟩
        · show min a.end_ to_ = max b.start from_
          rw [haend, min_eq_left (le_of_lt hb_lt_to), max_eq_left (le_of_lt hfb)]
        · show max a.start from_ < max b.start from_
          rw [max_eq_left (le_of_lt hfb)]
          exact max_lt hR.2.2 hfb

/-- C1 (amended): for a well-formed rule set and a window below the ceiling, the
intervals yielded by `iter_range` are non-empty, sorted by start, pairwise
non-overlapping, exactly adjacent (each interval ends where the next starts) and never
give two consecutive intervals the same kind. -/
theorem iter_range_invariants (oh : OpeningHours) (hwf : OHwf oh) (from_ to_ : Nat)
    (h1 : from_ < to_) (h2 : to_ ≤ dateLimit) (out : List DateTimeRange)
    (hout : iter_range oh from_ to_ = .ok out) :
    (∀ iv ∈ out, iv.start < iv.end_) ∧
    List.Chain' (fun a b : DateTimeRange => a.end_ = b.start) out ∧
    List.Chain' (fun a b : DateTimeRange => a.kind ≠ b.kind) out ∧
    List.Chain' (fun a b : DateTimeRange => a.start < b.start) out ∧
    List.Chain' (fun a b : DateTimeRange => a.end_ ≤ b.start) out := by
  have hf : ¬ dateLimit ≤ from_ := not_le.mpr (lt_of_lt_of_le h1 h2)
  have ht : ¬ dateLimit < to_ := not_lt.mpr h2
  unfold iter_range at hout
  rw [if_neg hf, if_neg ht] at hout
  cases hout
  have hs0wf : wfFrom 0 (tdInit oh from_ to_).2 = true := tdInit_wf oh from_ to_ hwf
  have hraw := tdRun_chain oh to_ hwf (to_ + dayLen + 1) (tdInit oh from_ to_) hs0wf
  have hmemf := tdRun_mem_facts oh to_ hwf (to_ + dayLen + 1) (tdInit oh from_ to_) hs0wf
  have hkept_chain := chain'_takeWhile (fun iv => decide (iv.start < to_)) _ hraw
  have hkept_lt : ∀ iv ∈ (tdRun oh to_ (to_ + dayLen + 1) (tdInit oh from_ to_)).takeWhile
      (fun iv => decide (iv.start < to_)), iv.start < to_ := by
    intro iv hm
    have := List.mem_takeWhile_imp hm
    simpa using this
  have hkept_ne : ∀ iv ∈ (tdRun oh to_ (to_ + dayLen + 1) (tdInit oh from_ to_)).takeWhile
      (fun iv => decide (iv.start < to_)), iv.start < iv.end_ := by
    intro iv hm
    exact (hmemf iv (mem_takeWhile_mem hm)).2 (hkept_lt iv hm)
  have hkept_head : ∀ iv0, ((tdRun oh to_ (to_ + dayLen + 1) (tdInit oh from_ to_)).takeWhile
      (fun iv => decide (iv.start < to_))).head? = some iv0 → from_ < iv0.end_ := by
    intro iv0 h0
    cases hrun : tdRun oh to_ (to_ + dayLen + 1) (tdInit oh from_ to_) with
    | nil => rw [hrun] at h0; cases h0
    | cons a rest =>
      rw [hrun, List.takeWhile_cons] at h0
      by_cases hp : decide (a.start < to_) = true
      · rw [if_pos hp] at h0
        rw [List.head?_cons, Option.some.injEq] at h0
        rw [← h0]
        obtain ⟨tr, l2, hseq, _, _, _, hend, _⟩ :=
          tdRun_first oh to_ (to_ + dayLen + 1) _ a rest hrun
        obtain ⟨_, _, _, cpos⟩ :=
          consume_spec oh to_ hwf (to_ / dayLen + 1) tr.kind (tdInit oh from_ to_).1
            (tdInit oh from_ to_).2 hs0wf
        rw [hseq] at cpos
        have hpos := cpos tr rfl rfl
        obtain ⟨hh1, hh2⟩ := tdInit_head oh from_ to_ tr l2 hseq
        have hfrom_lt : from_ < (tdInit oh from_ to_).1 * dayLen + tr.end_ := by
          rw [tdInit_date]
          simp only [dayLen] at hh2 ⊢
          omega
        rw [hend, hseq]
        rw [tdInit_date] at hpos hfrom_lt ⊢
        exact lt_min h1 (lt_of_lt_of_le hfrom_lt hpos)
      · rw [if_neg hp] at h0
        cases h0
  obtain ⟨hne, hchain⟩ := clip_props from_ to_ h1 _ hkept_chain hkept_lt hkept_ne hkept_head
  exact ⟨hne, hchain.imp (fun a b h => h.1), hchain.imp (fun a b h => h.2.1),
    hchain.imp (fun a b h => h.2.2), hchain.imp (fun a b h => le_of_eq h.1)⟩

/-- C1 counterexample: for the always-open rule set queried over `[0, 90000)` (one day
plus one hour), the yielded intervals stop at midnight of the window's final date
(86400) although the underlying state is continuous over the whole window (the
schedule of both spanned days is the same constant Open day): the output does not tile
the queried window, so the yielded intervals are not contiguous within it.  The cause
is that the iterator never installs the schedule of `to`'s own date
(`curr_date < end_datetime.date()`). -/
theorem iter_range_not_contiguous :
    iter_range ohAllOpen 0 90000 = .ok [⟨0, 86400, .Open, []⟩] ∧
      schedule_at ohAllOpen 0 = [⟨0, 86400, .Open, []⟩] ∧
      schedule_at ohAllOpen 1 = [⟨0, 86400, .Open, []⟩] ∧
      tiles 0 90000 [⟨0, 86400, .Open, []⟩] = false := by
  refine ⟨by decide, by decide, by decide, by decide⟩

/-- The always-open rule set satisfies the selector interface contract. -/
theorem ohAllOpen_wf : OHwf ohAllOpen := by
  intro rs hrs
  simp only [ohAllOpen, List.mem_singleton] at hrs
  subst hrs
  refine ⟨?_, ?_, ?_⟩
  · intro d p hp
    simp only [List.mem_singleton] at hp
    subst hp
    exact ⟨by norm_num [dayLen], le_refl _⟩
  · intro d p hp
    cases hp
  · intro d h hh
    cases hh

/-- C1 witness: the amended invariants evaluated on the always-open rule set over a
concrete window. -/
theorem iter_range_invariants_witness :
    (∀ iv ∈ [(⟨0, 86400, .Open, []⟩ : DateTimeRange)], iv.start < iv.end_) ∧
    List.Chain' (fun a b : DateTimeRange => a.end_ = b.start) [⟨0, 86400, .Open, []⟩] ∧
    List.Chain' (fun a b : DateTimeRange => a.kind ≠ b.kind) [⟨0, 86400, .Open, []⟩] ∧
    List.Chain' (fun a b : DateTimeRange => a.start < b.start) [⟨0, 86400, .Open, []⟩] ∧
    List.Chain' (fun a b : DateTimeRange => a.end_ ≤ b.start) [⟨0, 86400, .Open, []⟩] :=
  iter_range_invariants ohAllOpen ohAllOpen_wf 0 90000 (by decide)
    (by norm_num [dateLimit, dateLimitDays, dayLen]) [⟨0, 86400, .Open, []⟩] (by decide)

theorem dayLen_pos : 0 < dayLen := by norm_num [dayLen]

theorem dateLimit_div : dateLimit / dayLen = dateLimitDays := by
  unfold dateLimit
  exact Nat.mul_div_cancel _ dayLen_pos

/-- Coupled behaviour of the consume loop under the two end instants `to_` and the
date ceiling: either both behave identically and stay strictly before `to_`'s date, or
the `to_`-bounded loop stops with an exhausted schedule at or past `to_`'s date while
the ceiling-bounded loop ends at a cursor instant at or past `to_`'s midnight. -/
theorem consume_coupled (oh : OpeningHours) (hwf : OHwf oh) (to_ : Nat)
    (hto : to_ ≤ dateLimit) :
    ∀ (f2 f1 : Nat) (k : RuleKind) (date : Nat) (cs : Schedule),
      cs ≠ [] → wfFrom 0 cs = true → date < to_ / dayLen →
      to_ / dayLen ≤ f1 + date → dateLimitDays ≤ f2 + date →
      (consume oh to_ f1 k date cs = consume oh dateLimit f2 k date cs ∧
        (consume oh to_ f1 k date cs).2 ≠ [] ∧
        (consume oh to_ f1 k date cs).1 < to_ / dayLen) ∨
      ((consume oh to_ f1 k date cs).2 = [] ∧
        to_ / dayLen ≤ (consume oh to_ f1 k date cs).1 ∧
        to_ / dayLen * dayLen ≤ posOf (consume oh dateLimit f2 k date cs)) := by
  have hTLD : to_ / dayLen ≤ dateLimitDays := by
    rw [← dateLimit_div]
    exact Nat.div_le_div_right hto
  intro f2
  induction f2 with
  | zero =>
    intro f1 k date cs hne hcs hdT hb1 hb2
    exfalso
    omega
  | succ g2 ih =>
    intro f1 k date cs hne hcs hdT hb1 hb2
    cases cs with
    | nil => exact absurd rfl hne
    | cons tr0 l2 =>
      cases hdw : (tr0 :: l2).dropWhile (fun tr => decide (tr.kind = k)) with
      | cons tr' rest2 =>
        left
        rw [consume_within oh to_ f1 k date _ tr' rest2 hdw,
          consume_within oh dateLimit (g2 + 1) k date _ tr' rest2 hdw]
        exact ⟨rfl, by simp, hdT⟩
      | nil =>
        have hd' : date < (next_change_hint oh date).getD (date + 1) := hint_target_gt oh date hwf
        rw [consume_roll oh to_ f1 k date tr0 l2 hdw,
          consume_roll oh dateLimit (g2 + 1) k date tr0 l2 hdw]
        simp only []
        by_cases hd'T : (next_change_hint oh date).getD (date + 1) < to_ / dayLen
        · have hd'LD : (next_change_hint oh date).getD (date + 1) < dateLimit / dayLen := by
            rw [dateLimit_div]; omega
          rw [if_pos hd'T, if_pos hd'LD]
          cases f1 with
          | zero => exact absurd hb1 (by omega)
          | succ g1 =>
            have hfill_ne := into_iter_filled_ne_nil
              (schedule_at oh ((next_change_hint oh date).getD (date + 1)))
            have hfill_wf : wfFrom 0 (into_iter_filled
                (schedule_at oh ((next_change_hint oh date).getD (date + 1)))) = true :=
              into_iter_filled_wf _ (schedule_at_wf oh _ hwf)
            exact ih g1 k ((next_change_hint oh date).getD (date + 1)) _
              hfill_ne hfill_wf hd'T (by omega) (by omega)
        · rw [if_neg hd'T]
          right
          refine ⟨rfl, by omega, ?_⟩
          by_cases hd'LD : (next_change_hint oh date).getD (date + 1) < dateLimit / dayLen
          · rw [if_pos hd'LD]
            cases g2 with
            | zero =>
              rw [dateLimit_div] at hd'LD
              exact absurd hb2 (by omega)
            | succ g3 =>
              have hfill_wf : wfFrom 0 (into_iter_filled
                  (schedule_at oh ((next_change_hint oh date).getD (date + 1)))) = true :=
                into_iter_filled_wf _ (schedule_at_wf oh _ hwf)
              obtain ⟨_, cle, _, _⟩ := consume_spec oh dateLimit hwf (g3 + 1) k
                ((next_change_hint oh date).getD (date + 1)) _ hfill_wf
              refine le_trans ?_ (le_trans (Nat.mul_le_mul_right _ cle) (posOf_ge _))
              exact Nat.mul_le_mul_right _ (not_lt.mp hd'T)
          · rw [if_neg hd'LD]
            rw [posOf_nil]
            exact Nat.mul_le_mul_right _ (not_lt.mp hd'T)

theorem tdRun_empty_state (oh : OpeningHours) (e fuel : Nat) (s : Nat × Schedule)
    (h : s.2 = []) : tdRun oh e fuel s = [] := by
  obtain ⟨d, cs⟩ := s
  simp only at h
  subst h
  exact tdRun_nil_state oh e fuel d

/-- Coupled behaviour of the raw iterator runs bounded by a day-aligned `to_` and by
the date ceiling: after keeping only intervals starting before `to_` and clipping to
`[from_, to_]`, both runs produce the same list. -/
theorem coupled_run (oh : OpeningHours) (hwf : OHwf oh) (from_ to_ : Nat)
    (hto : to_ ≤ dateLimit) (hal : to_ % dayLen = 0) :
    ∀ (f2 f1 : Nat) (s : Nat × Schedule), wfFrom 0 s.2 = true →
      (s.2 ≠ [] → s.1 < to_ / dayLen) →
      (s.2 ≠ [] → to_ < f1 + posOf s) → (s.2 ≠ [] → to_ < f2 + posOf s) →
      ((tdRun oh to_ f1 s).takeWhile (fun iv => decide (iv.start < to_))).map
          (clipRange from_ to_) =
        ((tdRun oh dateLimit f2 s).takeWhile (fun iv => decide (iv.start < to_))).map
          (clipRange from_ to_) := by
  have hala : to_ / dayLen * dayLen = to_ := Nat.div_mul_cancel (Nat.dvd_of_mod_eq_zero hal)
  intro f2
  induction f2 with
  | zero =>
    intro f1 s hwfs hsd hbf1 hbf2
    obtain ⟨d, cs⟩ := s
    cases cs with
    | nil => rw [tdRun_empty_state _ _ _ _ rfl, tdRun_empty_state _ _ _ _ rfl]
    | cons tr l2 =>
      exfalso
      have hdT := hsd (by simp)
      have htrwf : tr.start < tr.end_ ∧ tr.end_ ≤ dayLen := by
        simp only [wfFrom, Bool.and_eq_true, decide_eq_true_eq] at hwfs
        exact ⟨hwfs.1.1.2, hwfs.1.2⟩
      have hposlt : posOf (d, tr :: l2) < to_ := by
        have h1 : posOf (d, tr :: l2) = d * dayLen + tr.start := by simp [posOf]
        have h2 : d * dayLen + tr.start < (d + 1) * dayLen := by
          have := htrwf.1
          have := htrwf.2
          simp only [dayLen] at *
          omega
        have h3 : (d + 1) * dayLen ≤ to_ / dayLen * dayLen := Nat.mul_le_mul_right _ hdT
        omega
      have := hbf2 (by simp)
      omega
  | succ g2 ih =>
    intro f1 s hwfs hsd hbf1 hbf2
    obtain ⟨d, cs⟩ := s
    cases cs with
    | nil => rw [tdRun_empty_state _ _ _ _ rfl, tdRun_empty_state _ _ _ _ rfl]
    | cons tr l2 =>
      have hdT := hsd (by simp)
      have htrwf : tr.start < tr.end_ ∧ tr.end_ ≤ dayLen := by
        simp only [wfFrom, Bool.and_eq_true, decide_eq_true_eq] at hwfs
        exact ⟨hwfs.1.1.2, hwfs.1.2⟩
      have hposval : posOf (d, tr :: l2) = d * dayLen + tr.start := by simp [posOf]
      have hposlt : posOf (d, tr :: l2) < to_ := by
        have h2 : d * dayLen + tr.start < (d + 1) * dayLen := by
          have := htrwf.1
          have := htrwf.2
          simp only [dayLen] at *
          omega
        have h3 : (d + 1) * dayLen ≤ to_ / dayLen * dayLen := Nat.mul_le_mul_right _ hdT
        omega
      have hb1' := hbf1 (by simp)
      have hb2' := hbf2 (by simp)
      cases f1 with
      | zero =>
        exfalso
        omega
      | succ g1 =>
        simp only [tdRun, tdNext_cons]
        have hcc := consume_coupled oh hwf to_ hto (dateLimit / dayLen + 1) (to_ / dayLen + 1)
          tr.kind d (tr :: l2) (by simp) hwfs hdT (by omega)
          (by rw [dateLimit_div]; omega)
        obtain ⟨cwf, cle, chead, cpos⟩ :=
          consume_spec oh to_ hwf (to_ / dayLen + 1) tr.kind d (tr :: l2) hwfs
        have hposr_ge : d * dayLen + tr.end_ ≤
            posOf (consume oh to_ (to_ / dayLen + 1) tr.kind d (tr :: l2)) := cpos tr rfl rfl
        rcases hcc with ⟨heq, hrne, hrlt⟩ | ⟨hnil, hge, hpos2⟩
        · rw [← heq]
          cases hr2 : (consume oh to_ (to_ / dayLen + 1) tr.kind d (tr :: l2)).2 with
          | nil => exact absurd hr2 hrne
          | cons tr'' l'' =>
            have hposr_lt : posOf (consume oh to_ (to_ / dayLen + 1) tr.kind d (tr :: l2)) < to_ := by
              have h1 : posOf (consume oh to_ (to_ / dayLen + 1) tr.kind d (tr :: l2)) =
                  (consume oh to_ (to_ / dayLen + 1) tr.kind d (tr :: l2)).1 * dayLen + tr''.start := by
                simp [posOf, hr2]
              have htr''wf : tr''.start < tr''.end_ ∧ tr''.end_ ≤ dayLen := by
                rw [hr2] at cwf
                simp only [wfFrom, Bool.and_eq_true, decide_eq_true_eq] at cwf
                exact ⟨cwf.1.1.2, cwf.1.2⟩
              have h2 : (consume oh to_ (to_ / dayLen + 1) tr.kind d (tr :: l2)).1 * dayLen +
                  tr''.start <
                  ((consume oh to_ (to_ / dayLen + 1) tr.kind d (tr :: l2)).1 + 1) * dayLen := by
                have := htr''wf.1
                have := htr''wf.2
                simp only [dayLen] at *
                omega
              have h3 : ((consume oh to_ (to_ / dayLen + 1) tr.kind d (tr :: l2)).1 + 1) * dayLen ≤
                  to_ / dayLen * dayLen := Nat.mul_le_mul_right _ hrlt
              omega
            have hmin : min to_ (posOf (consume oh to_ (to_ / dayLen + 1) tr.kind d (tr :: l2))) =
                min dateLimit (posOf (consume oh to_ (to_ / dayLen + 1) tr.kind d (tr :: l2))) := by
              rw [min_eq_right (le_of_lt hposr_lt),
                min_eq_right (le_of_lt (lt_of_lt_of_le hposr_lt hto))]
            rw [← hmin]
            rw [List.takeWhile_cons, List.takeWhile_cons]
            have hkeep : decide ((d * dayLen + tr.start) < to_) = true := by
              rw [hposval] at hposlt
              simpa using hposlt
            simp only [hkeep, if_true]
            simp only [List.map_cons]
            congr 1
            exact ih g1 (consume oh to_ (to_ / dayLen + 1) tr.kind d (tr :: l2)) cwf
              (fun _ => hrlt) (fun _ => by omega) (fun _ => by omega)
        · rw [tdRun_empty_state oh to_ g1 _ hnil]
          have hposr1 : to_ ≤ posOf (consume oh to_ (to_ / dayLen + 1) tr.kind d (tr :: l2)) := by
            have h1 : posOf (consume oh to_ (to_ / dayLen + 1) tr.kind d (tr :: l2)) =
                (consume oh to_ (to_ / dayLen + 1) tr.kind d (tr :: l2)).1 * dayLen := by
              simp [posOf, hnil]
            have := Nat.mul_le_mul_right dayLen hge
            omega
          have hposr2 : to_ ≤ posOf (consume oh dateLimit (dateLimit / dayLen + 1) tr.kind d (tr :: l2)) := by
            omega
          rw [List.takeWhile_cons, List.takeWhile_cons]
          have hkeep : decide ((d * dayLen + tr.start) < to_) = true := by
            rw [hposval] at hposlt
            simpa using hposlt
          simp only [hkeep, if_true]
          have htail2 : (tdRun oh dateLimit g2
              (consume oh dateLimit (dateLimit / dayLen + 1) tr.kind d (tr :: l2))).takeWhile
              (fun iv => decide (iv.start < to_)) = [] := by
            cases hrun2 : tdRun oh dateLimit g2
                (consume oh dateLimit (dateLimit / dayLen + 1) tr.kind d (tr :: l2)) with
            | nil => rfl
            | cons b rest =>
              obtain ⟨trx, lx, _, hbstart, _, _, _, _⟩ :=
                tdRun_first oh dateLimit g2 _ b rest hrun2
              rw [List.takeWhile_cons]
              have : decide (b.start < to_) = false := by
                rw [hbstart]
                simp only [decide_eq_false_iff_not, not_lt]
                exact hposr2
              rw [this]
              simp
          rw [htail2]
          simp only [List.takeWhile_nil, List.map_cons, List.map_nil, clipRange]
          have e1 : min to_ (posOf (consume oh to_ (to_ / dayLen + 1) tr.kind d (tr :: l2))) = to_ :=
            min_eq_left hposr1
          have e2 : to_ ≤ min dateLimit
              (posOf (consume oh dateLimit (dateLimit / dayLen + 1) tr.kind d (tr :: l2))) :=
            le_min hto hposr2
          rw [e1, min_self, min_eq_right e2]

theorem takeWhile_takeWhile_imp {α : Type} (p q : α → Bool) (h : ∀ x, p x = true → q x = true) :
    ∀ l : List α, (l.takeWhile q).takeWhile p = l.takeWhile p := by
  intro l
  induction l with
  | nil => rfl
  | cons a rest ih =>
    rw [List.takeWhile_cons]
    by_cases hq : q a = true
    · rw [if_pos hq, List.takeWhile_cons, List.takeWhile_cons]
      by_cases hp : p a = true
      · rw [if_pos hp, if_pos hp, ih]
      · rw [if_neg hp, if_neg hp]
    · rw [if_neg hq]
      have hp : ¬ p a = true := fun hpa => hq (h a hpa)
      rw [List.takeWhile_cons, if_neg hp]
      rfl

/-- C3 (amended): for a well-formed rule set and a window whose end is at a day
boundary (and below the ceiling), `intervals(from, to)` yields exactly the same
sequence of dated intervals as `iter_range(from, to)`. -/
theorem intervals_eq_iter_range (oh : OpeningHours) (hwf : OHwf oh) (from_ to_ : Nat)
    (h1 : from_ < to_) (h2 : to_ ≤ dateLimit) (hal : to_ % dayLen = 0) :
    intervals oh from_ to_ = iter_range oh from_ to_ := by
  have hala : to_ / dayLen * dayLen = to_ := Nat.div_mul_cancel (Nat.dvd_of_mod_eq_zero hal)
  have hfL : ¬ dateLimit ≤ from_ := not_le.mpr (lt_of_lt_of_le h1 h2)
  have htL : ¬ dateLimit < to_ := not_lt.mpr h2
  have hLL : ¬ dateLimit < dateLimit := lt_irrefl _
  have hfromLim : from_ < dateLimit := lt_of_lt_of_le h1 h2
  unfold intervals iter_from iter_range
  rw [if_neg hfL, if_neg hLL, if_neg hfL, if_neg htL]
  simp only []
  congr 1
  rw [List.takeWhile_map]
  have hfun : ((fun iv : DateTimeRange => decide (iv.start < to_)) ∘ (clipRange from_ dateLimit)) =
      (fun iv : DateTimeRange => decide (iv.start < to_)) := by
    funext iv
    simp only [Function.comp, clipRange]
    apply decide_eq_decide.mpr
    constructor
    · intro h
      exact lt_of_le_of_lt (le_max_left _ _) h
    · intro h
      exact max_lt h h1
  rw [hfun]
  rw [takeWhile_takeWhile_imp (fun iv : DateTimeRange => decide (iv.start < to_))
    (fun iv : DateTimeRange => decide (iv.start < dateLimit))
    (fun x hx => by
      simp only [decide_eq_true_eq] at hx ⊢
      exact lt_of_lt_of_le hx h2)]
  rw [List.map_map]
  rw [List.map_congr_left (g := clipRange from_ to_) (fun a _ => by
    simp only [Function.comp, clipRange]
    congr 1
    · rw [max_assoc, max_self]
    · rw [min_assoc, min_eq_right h2])]
  have hinit : tdInit oh from_ dateLimit = tdInit oh from_ to_ := by
    unfold tdInit
    simp only [if_pos hfromLim, if_pos h1]
  rw [hinit]
  have hs0wf : wfFrom 0 (tdInit oh from_ to_).2 = true := tdInit_wf oh from_ to_ hwf
  have hs0d : (tdInit oh from_ to_).2 ≠ [] → (tdInit oh from_ to_).1 < to_ / dayLen := by
    intro _
    rw [tdInit_date]
    rw [Nat.div_lt_iff_lt_mul dayLen_pos]
    omega
  exact (coupled_run oh hwf from_ to_ h2 hal (dateLimit + dayLen + 1) (to_ + dayLen + 1)
    (tdInit oh from_ to_) hs0wf hs0d (fun _ => by omega) (fun _ => by omega)).symm

/-- An always-open rule set whose next-change hint is absent on day 0 and jumps to the
ceiling afterwards, used to evaluate the two listing operations concretely. -/
def ohJump : OpeningHours :=
  ⟨[⟨.Normal, fun _ => true,
     fun d => if d = 0 then none else some (max (d + 1) dateLimitDays),
     fun _ => [(0, dayLen)], fun _ => [], .Open, []⟩], ⟨0, 0⟩⟩

/-- C3 counterexample: over the window `[0, 90000)` (one day plus one hour, both
instants accepted by the ceiling checks), `intervals` covers the full window while
`iter_range` stops at midnight of the window's final date, so the two operations
disagree. -/
theorem intervals_ne_iter_range :
    intervals ohJump 0 90000 = .ok [⟨0, 90000, .Open, []⟩] ∧
      iter_range ohJump 0 90000 = .ok [⟨0, 86400, .Open, []⟩] ∧
      intervals ohJump 0 90000 ≠ iter_range ohJump 0 90000 ∧
      (90000 : Nat) ≤ dateLimit :=
  ⟨by decide, by decide, by decide, by decide⟩

/-- C3 witness: the two listing operations agree on a concrete two-day window ending
at a day boundary. -/
theorem intervals_eq_iter_range_witness :
    intervals ohAllOpen 0 172800 = iter_range ohAllOpen 0 172800 :=
  intervals_eq_iter_range ohAllOpen ohAllOpen_wf 0 172800 (by decide) (by decide) (by decide)
